import Mathlib

set_option maxHeartbeats 1000000

unseal Rat.add Rat.mul Rat.inv Rat.sub Rat.ofScientific

/-!
# Verification development for the GNATFinder second-order pipeline

Shallow embedding of the C sources (`quadtree.c`, `gnats.c`, `network.c`,
`raster.c`, `gnatfinder.c`).  C `float` values are modelled as exact
rationals (`ℚ`); every concrete input used below involves only small dyadic
values on which the C float operations are exact.  C `long` timestamps are
modelled as `ℤ`.  The C sources call the integer `abs` from `<stdlib.h>` on
a `float` argument inside `BBoxContainsPoint` / `BBoxIntersects`; the
implicit float-to-int conversion truncates toward zero, which `ratTrunc`
models.  Heap mutation is modelled by explicit state passing, and the
(unbounded in C) insertion recursion is modelled with a fuel parameter:
fuel `0` returns the tree unchanged with result `false`, and the
termination theorem below shows the result is independent of the fuel once
the fuel is large enough.
-/

/-- Truncation toward zero of a rational, as performed by C's implicit
float-to-int conversion (the argument of `abs` in `BBoxContainsPoint`). -/
def ratTrunc (q : ℚ) : ℤ := if 0 ≤ q then ⌊q⌋ else ⌈q⌉

/-- `struct Spike` from `quadtree.h` (list links dropped; they only encode
the containing collection, which is modelled by `List`). -/
structure Spike where
  n_id : ℕ
  ts : ℤ
deriving DecidableEq

/-- `struct SpikePair` from `quadtree.h` (list links dropped). -/
structure SpikePair where
  sp1 : Spike
  sp2 : Spike
deriving DecidableEq

/-- The 2-D point `(sp1.ts, sp2.ts)` a spike pair denotes. -/
def pointOf (spp : SpikePair) : ℤ × ℤ := (spp.sp1.ts, spp.sp2.ts)

/-- `struct Synapse` from `network.h` (`next` link dropped).  The field
`neg_log_rel_w` is precomputed by `SynapseCreate`; it is carried as data
here because `-log` is not rational. -/
structure Synapse where
  src_id : ℕ
  tgt_id : ℕ
  rel_w : ℚ
  neg_log_rel_w : ℚ
  delay : ℚ
deriving DecidableEq

/-- `struct BoundingBox` from `quadtree.h`. -/
structure BoundingBox where
  c_x : ℚ
  c_y : ℚ
  w2 : ℚ
deriving DecidableEq

/-- `spike_equals` from `quadtree.c`. -/
def spike_equals (sp1 sp2 : Spike) : Bool :=
  decide (sp1.n_id = sp2.n_id) && decide (sp1.ts = sp2.ts)

/-- `BBoxContainsPoint` from `quadtree.c`:
`s1 = (abs(spp->sp1->ts - bb->c_x) < bb->w2)` and similarly `s2`.
The subtraction happens in float; `abs` is the stdlib integer `abs`, so the
float difference is truncated toward zero before the comparison. -/
def BBoxContainsPoint (bb : BoundingBox) (spp : SpikePair) : Bool :=
  decide ((((ratTrunc ((spp.sp1.ts : ℚ) - bb.c_x)).natAbs : ℚ) < bb.w2)) &&
  decide ((((ratTrunc ((spp.sp2.ts : ℚ) - bb.c_y)).natAbs : ℚ) < bb.w2))

/-- `BBoxIntersects` from `quadtree.c`: `d = bb1->w2 + bb2->w2;`
`b1 = (abs(bb2->c_x - bb1->c_x) <= d)` and similarly `b2`; again the
stdlib integer `abs` truncates the float difference toward zero. -/
def BBoxIntersects (bb1 bb2 : BoundingBox) : Bool :=
  decide ((((ratTrunc (bb2.c_x - bb1.c_x)).natAbs : ℚ) ≤ bb1.w2 + bb2.w2)) &&
  decide ((((ratTrunc (bb2.c_y - bb1.c_y)).natAbs : ℚ) ≤ bb1.w2 + bb2.w2))

/-- Strict real-valued containment, as the specification words it
(spec §3, BoundingBox): `|x−c_x| < w2 ∧ |y−c_y| < w2`.  Stated from the
spec's words only, for comparison against `BBoxContainsPoint`. -/
def specContainsPoint (bb : BoundingBox) (spp : SpikePair) : Bool :=
  decide (|(spp.sp1.ts : ℚ) - bb.c_x| < bb.w2) &&
  decide (|(spp.sp2.ts : ℚ) - bb.c_y| < bb.w2)

/-- `LARGE_GAMMA` from `gnats.c`. -/
def LARGE_GAMMA : ℚ := 999999

/-- `compute_gamma` from `gnats.c`:
`delta_t = (float)(sp_post->ts - sp_pre->ts);`
`theta = (delta_t >= edg->delay) ? 0 : 1;`
`gamma = (theta*LARGE_GAMMA) + (edg->neg_log_rel_w + (delta_t - edg->delay)/tau);` -/
def compute_gamma (sp_pre sp_post : Spike) (edg : Synapse) (tau : ℚ) : ℚ :=
  let delta_t : ℚ := ((sp_post.ts - sp_pre.ts : ℤ) : ℚ)
  let theta : ℚ := if edg.delay ≤ delta_t then 0 else 1
  theta * LARGE_GAMMA + (edg.neg_log_rel_w + (delta_t - edg.delay) / tau)

/-- `GNAT_test_for_edge` from `gnats.c`: positional pairing, both gammas
compared against the threshold. -/
def GNAT_test_for_edge (spp_pre spp_post : SpikePair) (edg : Synapse)
    (tau thresh : ℚ) : Bool :=
  decide (compute_gamma spp_pre.sp1 spp_post.sp1 edg tau ≤ thresh) &&
  decide (compute_gamma spp_pre.sp2 spp_post.sp2 edg tau ≤ thresh)

/-- `struct QuadTree` from `quadtree.h`.  A node is a leaf (children all
NULL, holding its pair list; `capacity` is the list length) or an internal
node (four non-null children; after `QTreeSubdivide` the pair list of an
internal node is always empty, so internal nodes carry no list here). -/
inductive QuadTree where
  | leaf (bdry : BoundingBox) (pairs : List SpikePair)
  | node (bdry : BoundingBox) (nw sw ne se : QuadTree)
deriving DecidableEq

/-- The `bdry` field of a quadtree node. -/
def QuadTree.bdry : QuadTree → BoundingBox
  | .leaf b _ => b
  | .node b _ _ _ _ => b

/-- All pairs stored in a subtree, in `QTreePrint`/query visiting order
(own pairs, then NW, SW, NE, SE recursively). -/
def qtPoints : QuadTree → List SpikePair
  | .leaf _ ps => ps
  | .node _ nw sw ne se => qtPoints nw ++ qtPoints sw ++ qtPoints ne ++ qtPoints se

/-- `QT_MAX_CAP` from `quadtree.h`. -/
def QT_MAX_CAP : ℕ := 4

/-- NW child box built by `QTreeSubdivide`: centre `(c_x−d2, c_y+d2)`,
half-width `d2 = w2/2`. -/
def nwBox (b : BoundingBox) : BoundingBox :=
  ⟨b.c_x - b.w2 / 2, b.c_y + b.w2 / 2, b.w2 / 2⟩

/-- SW child box built by `QTreeSubdivide`. -/
def swBox (b : BoundingBox) : BoundingBox :=
  ⟨b.c_x - b.w2 / 2, b.c_y - b.w2 / 2, b.w2 / 2⟩

/-- NE child box built by `QTreeSubdivide`. -/
def neBox (b : BoundingBox) : BoundingBox :=
  ⟨b.c_x + b.w2 / 2, b.c_y + b.w2 / 2, b.w2 / 2⟩

/-- SE child box built by `QTreeSubdivide`. -/
def seBox (b : BoundingBox) : BoundingBox :=
  ⟨b.c_x + b.w2 / 2, b.c_y - b.w2 / 2, b.w2 / 2⟩

/-- The four children of a node being updated (the quadruple
`qt->NW, qt->SW, qt->NE, qt->SE`). -/
structure Kids where
  nw : QuadTree
  sw : QuadTree
  ne : QuadTree
  se : QuadTree
deriving DecidableEq

/-- All pairs stored in the four children, in NW, SW, NE, SE order. -/
def kidsPoints (k : Kids) : List SpikePair :=
  qtPoints k.nw ++ qtPoints k.sw ++ qtPoints k.ne ++ qtPoints k.se

/-- The NW→SW→NE→SE first-success insertion cascade shared by the drain
loop of `QTreeSubdivide` and the child dispatch of `QTreeInsert`.  A failed
child insert may still have mutated the child (subdivision is a side
effect), so the updated child is kept even on failure, exactly as the C
heap keeps it. -/
def insertKids (ins : QuadTree → SpikePair → QuadTree × Bool) (k : Kids)
    (spp : SpikePair) : Kids × Bool :=
  let r1 := ins k.nw spp
  if r1.2 then (⟨r1.1, k.sw, k.ne, k.se⟩, true) else
  let r2 := ins k.sw spp
  if r2.2 then (⟨r1.1, r2.1, k.ne, k.se⟩, true) else
  let r3 := ins k.ne spp
  if r3.2 then (⟨r1.1, r2.1, r3.1, k.se⟩, true) else
  let r4 := ins k.se spp
  (⟨r1.1, r2.1, r3.1, r4.1⟩, r4.2)

/-- `QTreeSubdivide` from `quadtree.c`: build the four child leaves and
drain the node's pair list head-first, retrying each popped pair on
NW→SW→NE→SE; a pair all four children reject is discarded (the C loop
body simply falls through to the next iteration).  Parameterised by the
insertion function to mirror its mutually recursive use from
`QTreeInsert`. -/
def QTreeSubdivide (ins : QuadTree → SpikePair → QuadTree × Bool)
    (b : BoundingBox) (ps : List SpikePair) : Kids :=
  ps.foldl (fun k spp => (insertKids ins k spp).1)
    ⟨.leaf (nwBox b) [], .leaf (swBox b) [], .leaf (neBox b) [], .leaf (seBox b) []⟩

/-- `QTreeInsert` from `quadtree.c`, with fuel for the unbounded
subdivision recursion (fuel 0: no change, result `false`).  Cases of a
positive-fuel step, exactly as the C control flow:
reject if the boundary does not contain the point; append to a non-full
leaf (the C list append keeps insertion order); otherwise subdivide a full
leaf and fall through to the NW→SW→NE→SE child cascade, whose final
failure is the C `return FALSE` after the comment "shouldn't reach
here". -/
def QTreeInsert : ℕ → QuadTree → SpikePair → QuadTree × Bool
  | 0, qt, _ => (qt, false)
  | fuel + 1, .leaf b ps, spp =>
    if BBoxContainsPoint b spp = false then (.leaf b ps, false)
    else if ps.length < QT_MAX_CAP then (.leaf b (ps ++ [spp]), true)
    else
      let k0 := QTreeSubdivide (QTreeInsert fuel) b ps
      let r := insertKids (QTreeInsert fuel) k0 spp
      (.node b r.1.nw r.1.sw r.1.ne r.1.se, r.2)
  | fuel + 1, .node b nw sw ne se, spp =>
    if BBoxContainsPoint b spp = false then (.node b nw sw ne se, false)
    else
      let r := insertKids (QTreeInsert fuel) ⟨nw, sw, ne, se⟩ spp
      (.node b r.1.nw r.1.sw r.1.ne r.1.se, r.2)

/-- `QTreeCreate` from `quadtree.c`: an empty leaf over the given box. -/
def QTreeCreate (b : BoundingBox) : QuadTree := .leaf b []

/-- A sequence of `QTreeInsert` calls (each with the same fuel), results
discarded as in `insert_spike_pairs`. -/
def insertList (fuel : ℕ) (t : QuadTree) (ps : List SpikePair) : QuadTree :=
  ps.foldl (fun t spp => (QTreeInsert fuel t spp).1) t

/-- `QTreeMapQueryRange` from `quadtree.c`, with the visitor reified as
the list of visited pairs in visiting order: prune when the node box does
not intersect the region, otherwise visit the node's own pairs then
recurse NW, SW, NE, SE. -/
def QTreeMapQueryRange (qt : QuadTree) (r : BoundingBox) : List SpikePair :=
  match qt with
  | .leaf b ps => if BBoxIntersects b r then ps else []
  | .node b nw sw ne se =>
    if BBoxIntersects b r then
      QTreeMapQueryRange nw r ++ QTreeMapQueryRange sw r ++
      QTreeMapQueryRange ne r ++ QTreeMapQueryRange se r
    else []

/-- `struct GNATEdge` from `gnats.h`; the constant `1` third field written
by `QTreeMapGNATEdge`'s call to the buffer is not modelled (it is never
written to the output, per `fprint_GNAT_edge`). -/
structure GNATEdge where
  spp_pre : SpikePair
  spp_post : SpikePair
deriving DecidableEq

/-- `QTreeMapGNATEdge` from `gnats.c`: the specialised traversal that
applies `GNAT_test_for_edge` to every visited pre-pair and emits an edge
on success.  The bounded flushing buffer preserves emission order, so the
emitted stream is modelled as the returned list. -/
def QTreeMapGNATEdge (qt : QuadTree) (r : BoundingBox) (spp_post : SpikePair)
    (syn : Synapse) (tau theta : ℚ) : List GNATEdge :=
  match qt with
  | .leaf b ps =>
    if BBoxIntersects b r then
      (ps.filter (fun pre => GNAT_test_for_edge pre spp_post syn tau theta)).map
        (fun pre => ⟨pre, spp_post⟩)
    else []
  | .node b nw sw ne se =>
    if BBoxIntersects b r then
      QTreeMapGNATEdge nw r spp_post syn tau theta ++
      QTreeMapGNATEdge sw r spp_post syn tau theta ++
      QTreeMapGNATEdge ne r spp_post syn tau theta ++
      QTreeMapGNATEdge se r spp_post syn tau theta
    else []

/-- The doubly-nested spike walk shared by `insert_spike_pairs` and
`compute_gnat_edges`: outer cursor `sp_a` over the list, inner cursor
`sp_b` over the tail of `sp_a`, skipping `spike_equals` duplicates, pair
`(sp_a, sp_b)` in that order. -/
def spikePairsOf : List Spike → List SpikePair
  | [] => []
  | a :: rest =>
    ((rest.filter (fun b => !spike_equals a b)).map (fun b => ⟨a, b⟩)) ++
    spikePairsOf rest

/-- `insert_spike_pairs` from `gnatfinder.c`: generate the pair set of one
neuron's spike list and bulk-insert it (insert results ignored). -/
def insert_spike_pairs (fuel : ℕ) (qt : QuadTree) (spikes : List Spike) : QuadTree :=
  insertList fuel qt (spikePairsOf spikes)

/-- `compute_gnat_edges` from `gnatfinder.c`: for each postsynaptic neuron,
for each of its spike pairs, for each presynaptic synapse, query the
presynaptic quadtree over the box centred at the post-pair's coordinates
with half-width `c_radius`, streaming accepted edges in discovery order.
The raster spike lists, presynaptic lists and quadtree array are passed
explicitly (they are globals in the C code). -/
def compute_gnat_edges (n_cells : ℕ) (raster : List (List Spike))
    (presyns : List (List Synapse)) (qts : List QuadTree)
    (tau thresh c_radius : ℚ) : List GNATEdge :=
  (List.range n_cells).flatMap (fun post_idx =>
    (spikePairsOf (raster.getD post_idx [])).flatMap (fun spp_post =>
      (presyns.getD post_idx []).flatMap (fun presyn =>
        QTreeMapGNATEdge (qts.getD presyn.src_id (QTreeCreate ⟨0, 0, 0⟩))
          ⟨(spp_post.sp1.ts : ℚ), (spp_post.sp2.ts : ℚ), c_radius⟩
          spp_post presyn tau thresh)))

/-! ## Scenario D (spec §8) as concrete data

Neuron 0 spikes at {10, 20, 30}, neuron 1 at {11, 21, 31}; one synapse
0→1 with `rel_w = 1` (so `neg_log_rel_w = -ln 1 = 0`, exact also in
float), `delay = 1`; `τ = 1`, `θ = 1`, `c_radius = 100`.  The top-level
box of `main` is centred at `(t_max+t_min)/2 = 41/2` with half-width
`(t_max−t_min)/2 = 21/2` (both exact in float). -/

/-- Scenario D spike list of neuron 0, in file order. -/
def spD_r0 : List Spike := [⟨0, 10⟩, ⟨0, 20⟩, ⟨0, 30⟩]

/-- Scenario D spike list of neuron 1, in file order. -/
def spD_r1 : List Spike := [⟨1, 11⟩, ⟨1, 21⟩, ⟨1, 31⟩]

/-- Scenario D synapse 0→1, `rel_w = 1`, `neg_log_rel_w = 0`, `delay = 1`. -/
def synD : Synapse := ⟨0, 1, 1, 0, 1⟩

/-- Scenario D top-level bounding box from `main`. -/
def bboxD : BoundingBox := ⟨41 / 2, 41 / 2, 21 / 2⟩

/-- Scenario D quadtree of neuron 0. -/
def qtD0 : QuadTree := insert_spike_pairs 16 (QTreeCreate bboxD) spD_r0

/-- Scenario D quadtree of neuron 1. -/
def qtD1 : QuadTree := insert_spike_pairs 16 (QTreeCreate bboxD) spD_r1

/-- Scenario D emitted edge stream. -/
def edgesD : List GNATEdge :=
  compute_gnat_edges 2 [spD_r0, spD_r1] [[], [synD]] [qtD0, qtD1] 1 1 100

/-! ## Concrete quadtree scenarios used by the boundary claims -/

/-- Whether a node has been subdivided (children non-null). -/
def QuadTree.isNode : QuadTree → Bool
  | .leaf _ _ => false
  | .node _ _ _ _ _ => true

/-- A spike pair at point `(x, y)` (neuron id 0). -/
def pairAt (x y : ℤ) : SpikePair := ⟨⟨0, x⟩, ⟨0, y⟩⟩

/-- Root box of the subdivision-drop scenario: centre `(0, 10)`,
half-width `2`.  Its child-splitting lines are `x = 0` and `y = 10`. -/
def dropBox : BoundingBox := ⟨0, 10, 2⟩

/-- A full leaf over `dropBox` whose first stored pair `(0, 9)` lies on
the child-splitting line `x = 0`. -/
def dropLeaf : QuadTree :=
  insertList 16 (QTreeCreate dropBox)
    [pairAt 0 9, pairAt (-1) 9, pairAt (-1) 11, pairAt 1 9]

/-- The overflowing insertion that forces `dropLeaf` to subdivide. -/
def dropStep : QuadTree × Bool := QTreeInsert 16 dropLeaf (pairAt 1 11)

/-- Root box of the fall-through scenario: centre `(10, 0)`, half-width
`2`. -/
def fallBox : BoundingBox := ⟨10, 0, 2⟩

/-- A full leaf over `fallBox` whose four stored pairs each land in a
distinct child on subdivision. -/
def fallLeaf : QuadTree :=
  insertList 16 (QTreeCreate fallBox)
    [pairAt 9 (-1), pairAt 9 1, pairAt 11 (-1), pairAt 11 1]

/-- Insertion of the strictly interior point `(10, -1)` (on the splitting
line `x = 10`), which subdivides `fallLeaf` and then falls through all
four children. -/
def fallStep : QuadTree × Bool := QTreeInsert 16 fallLeaf (pairAt 10 (-1))

/-- Root box of the round-trip scenario: centre `(0, 20)`, half-width `2`. -/
def rtBox : BoundingBox := ⟨0, 20, 2⟩

/-- Five pairwise-distinct pairs strictly inside `rtBox`; the first lies
on the child-splitting line `x = 0`. -/
def rtPairs : List SpikePair :=
  [pairAt 0 19, pairAt (-1) 19, pairAt (-1) 21, pairAt 1 19, pairAt 1 21]

/-- The tree built by inserting all five `rtPairs`. -/
def rtTree : QuadTree := insertList 16 (QTreeCreate rtBox) rtPairs

/-- Root box of the missed-visit scenario: centre `(41/4, 22)`,
half-width `1/4` (all values exactly representable in float). -/
def missBox : BoundingBox := ⟨41 / 4, 22, 1 / 4⟩

/-- The single stored pair of the missed-visit scenario. -/
def missPair : SpikePair := pairAt 11 22

/-- The successful insertion of `missPair` into the tree on `missBox`. -/
def missStep : QuadTree × Bool := QTreeInsert 16 (QTreeCreate missBox) missPair

/-- A query region containing `missPair` strictly (real semantics) whose
truncated intersect test against `missBox` nevertheless fails. -/
def missRegion : BoundingBox := ⟨25 / 2, 22, 13 / 8⟩

/-! ## Structural invariants of built quadtrees -/

/-- Geometric well-formedness: each internal node's children carry the
four `QTreeSubdivide` boxes of their parent, and internal boxes have
non-negative half-width (subdivision only happens after a successful
containment test). -/
def Geom : QuadTree → Prop
  | .leaf _ _ => True
  | .node b nw sw ne se =>
    nw.bdry = nwBox b ∧ sw.bdry = swBox b ∧ ne.bdry = neBox b ∧ se.bdry = seBox b ∧
    0 ≤ b.w2 ∧ Geom nw ∧ Geom sw ∧ Geom ne ∧ Geom se

/-- Storage well-formedness: every pair stored in a subtree passes the
(truncated) containment test of that subtree's box, recursively at every
level — inserts check containment at every node on the path. -/
def StoredOK : QuadTree → Prop
  | .leaf b ps => ∀ p ∈ ps, BBoxContainsPoint b p = true
  | .node b nw sw ne se =>
    (∀ p ∈ qtPoints nw ++ qtPoints sw ++ qtPoints ne ++ qtPoints se,
      BBoxContainsPoint b p = true) ∧
    StoredOK nw ∧ StoredOK sw ∧ StoredOK ne ∧ StoredOK se

/-- Well-formedness used by the termination argument: leaves hold at most
`QT_MAX_CAP` contained pairs; internal nodes carry the subdivision
geometry and have half-width `> 1` (a box of half-width `≤ 1` can contain
at most four distinct integer points under the truncated test, so it can
never overflow on pairwise-distinct input). -/
def WfT : QuadTree → Prop
  | .leaf b ps => (∀ p ∈ ps, BBoxContainsPoint b p = true) ∧ ps.length ≤ QT_MAX_CAP
  | .node b nw sw ne se =>
    nw.bdry = nwBox b ∧ sw.bdry = swBox b ∧ ne.bdry = neBox b ∧ se.bdry = seBox b ∧
    1 < b.w2 ∧ WfT nw ∧ WfT sw ∧ WfT ne ∧ WfT se

/-- A tree that is a leaf whose stored pairs are all contained in its box. -/
def IsLeafWf (t : QuadTree) : Prop :=
  ∃ b l, t = QuadTree.leaf b l ∧ ∀ p ∈ l, BBoxContainsPoint b p = true

/-- Number of pairs stored in the four children. -/
def kidsCount (k : Kids) : ℕ := (kidsPoints k).length

/-- Drain-loop invariant: the four children are well-formed leaves and
their total stored count plus the `m` pairs still to drain fits in one
leaf's capacity, so no drain insertion can overflow a child. -/
def LeafKidsBudget (k : Kids) (m : ℕ) : Prop :=
  IsLeafWf k.nw ∧ IsLeafWf k.sw ∧ IsLeafWf k.ne ∧ IsLeafWf k.se ∧
  kidsCount k + m ≤ QT_MAX_CAP

/-- Real-geometry bound of a box `bx` inside a root box `r`: `bx` (as a
real square) lies inside `r`.  Every box of a `Geom` tree satisfies it
with respect to the root box, which forces the truncated intersect test
between the box and the root box to succeed. -/
def BoxIn (r bx : BoundingBox) : Prop :=
  0 ≤ bx.w2 ∧ |bx.c_x - r.c_x| ≤ r.w2 - bx.w2 ∧ |bx.c_y - r.c_y| ≤ r.w2 - bx.w2

/-! ## Theorems -/

/-- C1 counterexample: with `Δ = 0 < delay = 1`, `rel_w = 1` (so
`neg_log_rel_w = 0`) and `τ = 1`, `compute_gamma` returns
`999999 + (0 + (0 − 1)/1) = 999998`, not the bare sentinel `LARGE_GAMMA`,
falsifying both the sub-delay clause and the claimed iff. -/
theorem c1_gamma_sentinel_counterexample :
    (((Spike.ts ⟨1, 10⟩ - Spike.ts ⟨0, 10⟩ : ℤ) : ℚ) < synD.delay) ∧
    compute_gamma ⟨0, 10⟩ ⟨1, 10⟩ synD 1 ≠ LARGE_GAMMA := by
  constructor
  · decide
  · decide

/-- C1, amended: in the sub-delay regime `compute_gamma` returns the
sentinel *plus* `neg_log_rel_w + (Δ − delay)/τ` (the Heaviside factor
multiplies only the sentinel term, it does not replace the sum); in the
super-delay regime it returns `neg_log_rel_w + (Δ − delay)/τ`. -/
theorem c1_gamma_subdelay_corrected (sp_pre sp_post : Spike) (edg : Synapse)
    (tau : ℚ) (ht : 0 < tau) :
    (((sp_post.ts - sp_pre.ts : ℤ) : ℚ) < edg.delay →
      compute_gamma sp_pre sp_post edg tau =
        LARGE_GAMMA + edg.neg_log_rel_w +
          (((sp_post.ts - sp_pre.ts : ℤ) : ℚ) - edg.delay) / tau) ∧
    (edg.delay ≤ ((sp_post.ts - sp_pre.ts : ℤ) : ℚ) →
      compute_gamma sp_pre sp_post edg tau =
        edg.neg_log_rel_w + (((sp_post.ts - sp_pre.ts : ℤ) : ℚ) - edg.delay) / tau) := by
  constructor
  · intro h
    simp only [compute_gamma]
    rw [if_neg (not_le.mpr h)]
    ring
  · intro h
    simp only [compute_gamma]
    rw [if_pos h]
    ring

/-- Witness for `c1_gamma_subdelay_corrected` at the inputs of the
counterexample. -/
theorem c1_gamma_subdelay_corrected_witness :
    compute_gamma ⟨0, 10⟩ ⟨1, 10⟩ synD 1 = 999998 := by
  have h := (c1_gamma_subdelay_corrected ⟨0, 10⟩ ⟨1, 10⟩ synD 1 (by norm_num)).1
    (by decide)
  rw [h]
  decide

/-- C2: `GNAT_test_for_edge` accepts exactly when both positional gammas
(`sp1` with `sp1`, `sp2` with `sp2`) are at most the threshold. -/
theorem c2_edge_test_iff (spp_pre spp_post : SpikePair) (edg : Synapse)
    (tau thresh : ℚ) :
    GNAT_test_for_edge spp_pre spp_post edg tau thresh = true ↔
      (compute_gamma spp_pre.sp1 spp_post.sp1 edg tau ≤ thresh ∧
       compute_gamma spp_pre.sp2 spp_post.sp2 edg tau ≤ thresh) := by
  simp [GNAT_test_for_edge]

/-- C6 counterexample: the box centred at `(1/2, 3/2)` with half-width
`1/4` reports the point `(1, 2)` as contained (the truncated per-axis
distance is `0 < 1/4`), although the real distance `1/2` is not below
`1/4`, falsifying the claimed iff with real absolute values. -/
theorem c6_bbox_real_abs_counterexample :
    BBoxContainsPoint ⟨1 / 2, 3 / 2, 1 / 4⟩ ⟨⟨0, 1⟩, ⟨0, 2⟩⟩ = true ∧
    ¬ (|(1 : ℚ) - 1 / 2| < 1 / 4) := by
  constructor
  · decide
  · decide

/-- C6, amended: `BBoxContainsPoint` (strict) and `BBoxIntersects`
(inclusive) compare the integer-truncated per-axis distances, not the
real absolute values. -/
theorem c6_bbox_trunc_corrected :
    (∀ (bb : BoundingBox) (spp : SpikePair),
      BBoxContainsPoint bb spp = true ↔
        (((ratTrunc ((spp.sp1.ts : ℚ) - bb.c_x)).natAbs : ℚ) < bb.w2 ∧
         ((ratTrunc ((spp.sp2.ts : ℚ) - bb.c_y)).natAbs : ℚ) < bb.w2)) ∧
    (∀ bb1 bb2 : BoundingBox,
      BBoxIntersects bb1 bb2 = true ↔
        (((ratTrunc (bb2.c_x - bb1.c_x)).natAbs : ℚ) ≤ bb1.w2 + bb2.w2 ∧
         ((ratTrunc (bb2.c_y - bb1.c_y)).natAbs : ℚ) ≤ bb1.w2 + bb2.w2)) := by
  constructor
  · intro bb spp
    simp [BBoxContainsPoint]
  · intro bb1 bb2
    simp [BBoxIntersects]

/-- C10: the box tests act on truncated distances — truncated per-axis
distances below `w2` suffice for containment, and the point at real
offset `11/2` per axis from the centre of a box of half-width `11/2` is
accepted even though strict real containment fails. -/
theorem c10_truncated_containment :
    (∀ (bb : BoundingBox) (spp : SpikePair),
      ((ratTrunc ((spp.sp1.ts : ℚ) - bb.c_x)).natAbs : ℚ) < bb.w2 →
      ((ratTrunc ((spp.sp2.ts : ℚ) - bb.c_y)).natAbs : ℚ) < bb.w2 →
      BBoxContainsPoint bb spp = true) ∧
    (BBoxContainsPoint ⟨1 / 2, 21 / 2, 11 / 2⟩ ⟨⟨0, 6⟩, ⟨0, 16⟩⟩ = true ∧
     (11 / 2 : ℚ) ≤ |(6 : ℚ) - 1 / 2| ∧
     (11 / 2 : ℚ) ≤ |(16 : ℚ) - 21 / 2|) := by
  refine ⟨?_, by decide, by decide, by decide⟩
  intro bb spp h1 h2
  simp [BBoxContainsPoint, h1, h2]

/-- Witness for `c10_truncated_containment`, discharging the truncated
hypotheses at the concrete box and point of its second conjunct. -/
theorem c10_truncated_containment_witness :
    BBoxContainsPoint ⟨1 / 2, 21 / 2, 11 / 2⟩ ⟨⟨0, 6⟩, ⟨0, 16⟩⟩ = true :=
  c10_truncated_containment.1 ⟨1 / 2, 21 / 2, 11 / 2⟩ ⟨⟨0, 6⟩, ⟨0, 16⟩⟩
    (by decide) (by decide)

/-- C4 (code bug): the pair `(0, 9)` sits on the child-splitting line
`x = 0` of `dropBox`; it is stored in the full leaf, and after the
overflowing insertion (which succeeds for the new pair) the subdivision
has silently discarded it — it is stored in no descendant and the total
count across the subdivision is not preserved. -/
theorem c4_subdivision_drop_bug :
    pairAt 0 9 ∈ qtPoints dropLeaf ∧
    (qtPoints dropLeaf).length = 4 ∧
    dropStep.2 = true ∧
    pairAt 0 9 ∉ qtPoints dropStep.1 ∧
    (qtPoints dropStep.1).length = 4 := by
  refine ⟨by decide, by decide, by decide, by decide, by decide⟩

/-- C7 (code bug): the point `(10, -1)` is strictly interior to `fallBox`
(both in the real and in the truncated sense), yet *zero* of the four
child boxes contain it; inserting it into the full leaf subdivides the
node and then reaches the `return FALSE` after the comment "shouldn't
reach here". -/
theorem c7_fallthrough_reachable_bug :
    BBoxContainsPoint fallBox (pairAt 10 (-1)) = true ∧
    specContainsPoint fallBox (pairAt 10 (-1)) = true ∧
    ([nwBox fallBox, swBox fallBox, neBox fallBox, seBox fallBox].countP
      (fun cb => BBoxContainsPoint cb (pairAt 10 (-1)))) = 0 ∧
    (fallStep.1).isNode = true ∧
    fallStep.2 = false := by
  refine ⟨by decide, by decide, by decide, by decide, by decide⟩

/-- C3 counterexample: five pairwise-distinct pairs strictly inside
`rtBox` (real semantics) are inserted, yet the root-box query visits only
four of their points — the pair on the splitting line was dropped during
subdivision, so the visited multiset differs from the inserted one. -/
theorem c3_roundtrip_counterexample :
    rtPairs.Nodup ∧
    rtPairs.all (specContainsPoint rtBox) = true ∧
    ¬ (((QTreeMapQueryRange rtTree rtBox).map pointOf : Multiset (ℤ × ℤ)) =
        ((rtPairs.map pointOf : List (ℤ × ℤ)) : Multiset (ℤ × ℤ))) := by
  refine ⟨by decide, by decide, by decide⟩

/-- C5 counterexample: `missPair` is successfully inserted and stored;
it lies strictly inside `missRegion` (real semantics), yet the truncated
intersect test between `missBox` and `missRegion` fails, so the query
prunes the whole tree and never visits the pair. -/
theorem c5_range_visit_counterexample :
    missStep.2 = true ∧
    missPair ∈ qtPoints missStep.1 ∧
    specContainsPoint missRegion missPair = true ∧
    missPair ∉ QTreeMapQueryRange missStep.1 missRegion := by
  refine ⟨by decide, by decide, by decide, by decide⟩

/-- C8 counterexample: the Scenario D pipeline does not emit 6 edges. -/
theorem c8_scenarioD_counterexample : edgesD.length ≠ 6 := by decide

/-- C8, amended: Scenario D emits exactly 3 edges, the three positional
pairings `((10,20),(11,21))`, `((10,30),(11,31))`, `((20,30),(21,31))`
with both gammas zero (the pair sets contain the 3 file-order pairs per
neuron, not 6, so only 3 matches have both gammas zero). -/
theorem c8_scenarioD_corrected :
    edgesD = [⟨⟨⟨0, 10⟩, ⟨0, 20⟩⟩, ⟨⟨1, 11⟩, ⟨1, 21⟩⟩⟩,
              ⟨⟨⟨0, 10⟩, ⟨0, 30⟩⟩, ⟨⟨1, 11⟩, ⟨1, 31⟩⟩⟩,
              ⟨⟨⟨0, 20⟩, ⟨0, 30⟩⟩, ⟨⟨1, 21⟩, ⟨1, 31⟩⟩⟩] ∧
    edgesD.length = 3 := by
  refine ⟨by decide, by decide⟩

/-! ### Basic unfolding lemmas -/

@[simp] theorem bdry_leaf (b : BoundingBox) (ps : List SpikePair) :
    (QuadTree.leaf b ps).bdry = b := rfl

@[simp] theorem bdry_node (b : BoundingBox) (nw sw ne se : QuadTree) :
    (QuadTree.node b nw sw ne se).bdry = b := rfl

@[simp] theorem qtPoints_leaf (b : BoundingBox) (ps : List SpikePair) :
    qtPoints (.leaf b ps) = ps := rfl

@[simp] theorem qtPoints_node (b : BoundingBox) (nw sw ne se : QuadTree) :
    qtPoints (.node b nw sw ne se) =
      qtPoints nw ++ qtPoints sw ++ qtPoints ne ++ qtPoints se := rfl

theorem insert_zero (t : QuadTree) (spp : SpikePair) :
    QTreeInsert 0 t spp = (t, false) := rfl

theorem insert_succ_leaf (fuel : ℕ) (b : BoundingBox) (ps : List SpikePair)
    (spp : SpikePair) :
    QTreeInsert (fuel + 1) (.leaf b ps) spp =
      if BBoxContainsPoint b spp = false then (.leaf b ps, false)
      else if ps.length < QT_MAX_CAP then (.leaf b (ps ++ [spp]), true)
      else
        let k0 := QTreeSubdivide (QTreeInsert fuel) b ps
        let r := insertKids (QTreeInsert fuel) k0 spp
        (.node b r.1.nw r.1.sw r.1.ne r.1.se, r.2) := rfl

theorem insert_succ_node (fuel : ℕ) (b : BoundingBox) (nw sw ne se : QuadTree)
    (spp : SpikePair) :
    QTreeInsert (fuel + 1) (.node b nw sw ne se) spp =
      if BBoxContainsPoint b spp = false then (.node b nw sw ne se, false)
      else
        let r := insertKids (QTreeInsert fuel) ⟨nw, sw, ne, se⟩ spp
        (.node b r.1.nw r.1.sw r.1.ne r.1.se, r.2) := rfl

theorem insertList_nil (fuel : ℕ) (t : QuadTree) : insertList fuel t [] = t := rfl

theorem insertList_cons (fuel : ℕ) (t : QuadTree) (p : SpikePair)
    (ps : List SpikePair) :
    insertList fuel t (p :: ps) = insertList fuel (QTreeInsert fuel t p).1 ps := rfl

theorem subdivide_eq_foldl (ins : QuadTree → SpikePair → QuadTree × Bool)
    (b : BoundingBox) (ps : List SpikePair) :
    QTreeSubdivide ins b ps =
      ps.foldl (fun k spp => (insertKids ins k spp).1)
        ⟨.leaf (nwBox b) [], .leaf (swBox b) [], .leaf (neBox b) [], .leaf (seBox b) []⟩ := rfl

/-- Each component of the cascade result is the original child or the
result of inserting into that child; NW is always attempted. -/
theorem insertKids_comp (ins : QuadTree → SpikePair → QuadTree × Bool)
    (k : Kids) (spp : SpikePair) :
    ((insertKids ins k spp).1.nw = (ins k.nw spp).1) ∧
    ((insertKids ins k spp).1.sw = k.sw ∨ (insertKids ins k spp).1.sw = (ins k.sw spp).1) ∧
    ((insertKids ins k spp).1.ne = k.ne ∨ (insertKids ins k spp).1.ne = (ins k.ne spp).1) ∧
    ((insertKids ins k spp).1.se = k.se ∨ (insertKids ins k spp).1.se = (ins k.se spp).1) := by
  unfold insertKids
  by_cases h1 : (ins k.nw spp).2 <;> simp [h1]
  by_cases h2 : (ins k.sw spp).2 <;> simp [h2]
  by_cases h3 : (ins k.ne spp).2 <;> simp [h3]

/-- If two insertion functions agree on the four children, the cascades
agree. -/
theorem insertKids_congr (ins1 ins2 : QuadTree → SpikePair → QuadTree × Bool)
    (k : Kids) (spp : SpikePair)
    (h1 : ins1 k.nw spp = ins2 k.nw spp) (h2 : ins1 k.sw spp = ins2 k.sw spp)
    (h3 : ins1 k.ne spp = ins2 k.ne spp) (h4 : ins1 k.se spp = ins2 k.se spp) :
    insertKids ins1 k spp = insertKids ins2 k spp := by
  unfold insertKids
  rw [h1, h2, h3, h4]

/-- Insertion never changes the boundary box of the node it is applied
to. -/
theorem insert_bdry : ∀ (fuel : ℕ) (t : QuadTree) (spp : SpikePair),
    ((QTreeInsert fuel t spp).1).bdry = t.bdry
  | 0, _, _ => rfl
  | fuel + 1, .leaf b ps, spp => by
    rw [insert_succ_leaf]
    split
    · rfl
    · split
      · rfl
      · rfl
  | fuel + 1, .node b nw sw ne se, spp => by
    rw [insert_succ_node]
    split
    · rfl
    · rfl

/-! ### Arithmetic properties of the truncated distance -/

theorem ratTrunc_natAbs_le (q : ℚ) : (((ratTrunc q).natAbs : ℕ) : ℚ) ≤ |q| := by
  rw [Int.cast_natAbs, Int.cast_abs]
  unfold ratTrunc
  split
  case isTrue h =>
    have h0 : (0 : ℚ) ≤ ((⌊q⌋ : ℤ) : ℚ) := by exact_mod_cast Int.floor_nonneg.mpr h
    rw [abs_of_nonneg h0, abs_of_nonneg h]
    exact Int.floor_le q
  case isFalse h =>
    push_neg at h
    have h0 : ((⌈q⌉ : ℤ) : ℚ) ≤ 0 := by
      have hc : ⌈q⌉ ≤ (0 : ℤ) := Int.ceil_le.mpr (by exact_mod_cast h.le)
      exact_mod_cast hc
    rw [abs_of_nonpos h0, abs_of_nonpos h.le]
    have := Int.le_ceil q
    linarith

theorem abs_lt_ratTrunc_add_one (q : ℚ) :
    |q| < (((ratTrunc q).natAbs : ℕ) : ℚ) + 1 := by
  rw [Int.cast_natAbs, Int.cast_abs]
  unfold ratTrunc
  split
  case isTrue h =>
    have h0 : (0 : ℚ) ≤ ((⌊q⌋ : ℤ) : ℚ) := by exact_mod_cast Int.floor_nonneg.mpr h
    rw [abs_of_nonneg h0, abs_of_nonneg h]
    exact Int.lt_floor_add_one q
  case isFalse h =>
    push_neg at h
    have h0 : ((⌈q⌉ : ℤ) : ℚ) ≤ 0 := by
      have hc : ⌈q⌉ ≤ (0 : ℤ) := Int.ceil_le.mpr (by exact_mod_cast h.le)
      exact_mod_cast hc
    rw [abs_of_nonpos h0, abs_of_nonpos h.le]
    have := Int.ceil_lt_add_one q
    linarith

/-- An integer within open distance 1 of a rational `c` is `⌊c⌋` or `⌈c⌉`. -/
theorem int_unit_cases (c : ℚ) (x : ℤ) (h : |(x : ℚ) - c| < 1) :
    x = ⌊c⌋ ∨ x = ⌈c⌉ := by
  rw [abs_lt] at h
  obtain ⟨h1, h2⟩ := h
  have hf : ⌊c⌋ ≤ x := by
    have hq : ((⌊c⌋ : ℤ) : ℚ) < (x : ℚ) + 1 := lt_of_le_of_lt (Int.floor_le c) (by linarith)
    have : ⌊c⌋ < x + 1 := by exact_mod_cast hq
    omega
  have hc : x ≤ ⌈c⌉ := by
    have hq : (x : ℚ) - 1 < ((⌈c⌉ : ℤ) : ℚ) := lt_of_lt_of_le (by linarith) (Int.le_ceil c)
    have : x - 1 < ⌈c⌉ := by exact_mod_cast hq
    omega
  have hfc : ⌈c⌉ ≤ ⌊c⌋ + 1 := Int.ceil_le_floor_add_one c
  omega

/-! ### Characterisations of the box tests -/

theorem contains_eq_true_iff (bb : BoundingBox) (spp : SpikePair) :
    BBoxContainsPoint bb spp = true ↔
      ((((ratTrunc ((spp.sp1.ts : ℚ) - bb.c_x)).natAbs : ℕ) : ℚ) < bb.w2 ∧
       (((ratTrunc ((spp.sp2.ts : ℚ) - bb.c_y)).natAbs : ℕ) : ℚ) < bb.w2) := by
  simp [BBoxContainsPoint]

theorem intersects_eq_true_iff (bb1 bb2 : BoundingBox) :
    BBoxIntersects bb1 bb2 = true ↔
      ((((ratTrunc (bb2.c_x - bb1.c_x)).natAbs : ℕ) : ℚ) ≤ bb1.w2 + bb2.w2 ∧
       (((ratTrunc (bb2.c_y - bb1.c_y)).natAbs : ℕ) : ℚ) ≤ bb1.w2 + bb2.w2) := by
  simp [BBoxIntersects]

theorem contains_w2_pos (bb : BoundingBox) (spp : SpikePair)
    (h : BBoxContainsPoint bb spp = true) : 0 < bb.w2 := by
  rw [contains_eq_true_iff] at h
  have h0 : (0 : ℚ) ≤ (((ratTrunc ((spp.sp1.ts : ℚ) - bb.c_x)).natAbs : ℕ) : ℚ) := by
    positivity
  linarith [h.1]

/-- A contained point is within real distance `w2 + 1` of the centre on
each axis (the truncation can lose up to one unit). -/
theorem contains_abs_lt (bb : BoundingBox) (spp : SpikePair)
    (h : BBoxContainsPoint bb spp = true) :
    |(spp.sp1.ts : ℚ) - bb.c_x| < bb.w2 + 1 ∧
    |(spp.sp2.ts : ℚ) - bb.c_y| < bb.w2 + 1 := by
  rw [contains_eq_true_iff] at h
  constructor
  · have := abs_lt_ratTrunc_add_one ((spp.sp1.ts : ℚ) - bb.c_x)
    linarith [h.1]
  · have := abs_lt_ratTrunc_add_one ((spp.sp2.ts : ℚ) - bb.c_y)
    linarith [h.2]

/-- Real centre distances at most the width sum force the truncated
intersect test to succeed. -/
theorem intersects_of_abs_le (bb1 bb2 : BoundingBox)
    (hx : |bb2.c_x - bb1.c_x| ≤ bb1.w2 + bb2.w2)
    (hy : |bb2.c_y - bb1.c_y| ≤ bb1.w2 + bb2.w2) :
    BBoxIntersects bb1 bb2 = true := by
  rw [intersects_eq_true_iff]
  exact ⟨le_trans (ratTrunc_natAbs_le _) hx, le_trans (ratTrunc_natAbs_le _) hy⟩

/-- A contained point in a box of half-width at most 1 has coordinates
`⌊c⌋` or `⌈c⌉` on each axis. -/
theorem contains_small_box (bb : BoundingBox) (spp : SpikePair) (hw : bb.w2 ≤ 1)
    (h : BBoxContainsPoint bb spp = true) :
    (spp.sp1.ts = ⌊bb.c_x⌋ ∨ spp.sp1.ts = ⌈bb.c_x⌉) ∧
    (spp.sp2.ts = ⌊bb.c_y⌋ ∨ spp.sp2.ts = ⌈bb.c_y⌉) := by
  rw [contains_eq_true_iff] at h
  obtain ⟨h1, h2⟩ := h
  have n1 : (ratTrunc ((spp.sp1.ts : ℚ) - bb.c_x)).natAbs = 0 := by
    by_contra hne
    have : (1 : ℚ) ≤ (((ratTrunc ((spp.sp1.ts : ℚ) - bb.c_x)).natAbs : ℕ) : ℚ) := by
      exact_mod_cast Nat.one_le_iff_ne_zero.mpr hne
    linarith
  have n2 : (ratTrunc ((spp.sp2.ts : ℚ) - bb.c_y)).natAbs = 0 := by
    by_contra hne
    have : (1 : ℚ) ≤ (((ratTrunc ((spp.sp2.ts : ℚ) - bb.c_y)).natAbs : ℕ) : ℚ) := by
      exact_mod_cast Nat.one_le_iff_ne_zero.mpr hne
    linarith
  constructor
  · apply int_unit_cases
    have := abs_lt_ratTrunc_add_one ((spp.sp1.ts : ℚ) - bb.c_x)
    rw [n1] at this
    simpa using this
  · apply int_unit_cases
    have := abs_lt_ratTrunc_add_one ((spp.sp2.ts : ℚ) - bb.c_y)
    rw [n2] at this
    simpa using this

/-- Pigeonhole: a box of half-width at most 1 stores at most four pairs
with pairwise-distinct points under the truncated containment test. -/
theorem contained_nodup_length_le (bb : BoundingBox) (l : List SpikePair)
    (hw : bb.w2 ≤ 1) (hc : ∀ p ∈ l, BBoxContainsPoint bb p = true)
    (hnd : (l.map pointOf).Nodup) : l.length ≤ 4 := by
  have hsub : (l.map pointOf).toFinset ⊆
      ({⌊bb.c_x⌋, ⌈bb.c_x⌉} : Finset ℤ) ×ˢ ({⌊bb.c_y⌋, ⌈bb.c_y⌉} : Finset ℤ) := by
    intro pt hpt
    rw [List.mem_toFinset, List.mem_map] at hpt
    obtain ⟨p, hp, rfl⟩ := hpt
    have h2 := contains_small_box bb p hw (hc p hp)
    rw [Finset.mem_product]
    constructor
    · rcases h2.1 with h | h <;> simp [pointOf, h]
    · rcases h2.2 with h | h <;> simp [pointOf, h]
  have hcard1 : (l.map pointOf).toFinset.card = l.length := by
    rw [List.toFinset_card_of_nodup hnd, List.length_map]
  have hcx : ({⌊bb.c_x⌋, ⌈bb.c_x⌉} : Finset ℤ).card ≤ 2 := by
    apply le_trans (Finset.card_insert_le _ _)
    simp
  have hcy : ({⌊bb.c_y⌋, ⌈bb.c_y⌉} : Finset ℤ).card ≤ 2 := by
    apply le_trans (Finset.card_insert_le _ _)
    simp
  have hcard2 := Finset.card_le_card hsub
  rw [hcard1, Finset.card_product] at hcard2
  calc l.length ≤ ({⌊bb.c_x⌋, ⌈bb.c_x⌉} : Finset ℤ).card *
        ({⌊bb.c_y⌋, ⌈bb.c_y⌉} : Finset ℤ).card := hcard2
    _ ≤ 2 * 2 := Nat.mul_le_mul hcx hcy
    _ ≤ 4 := by norm_num

/-! ### Stored pairs under insertion -/

theorem kidsPoints_coe (k : Kids) :
    ((kidsPoints k : List SpikePair) : Multiset SpikePair) =
      (qtPoints k.nw : Multiset SpikePair) + ↑(qtPoints k.sw) +
      ↑(qtPoints k.ne) + ↑(qtPoints k.se) := by
  simp [kidsPoints]

/-- The cascade adds at most the inserted pair (when its flag is true) to
the children's stored multiset, assuming the same of the insertion
function it dispatches to. -/
theorem insertKids_points_le (ins : QuadTree → SpikePair → QuadTree × Bool)
    (spp : SpikePair)
    (hins : ∀ t : QuadTree,
      ((qtPoints (ins t spp).1 : List SpikePair) : Multiset SpikePair) ≤
        ↑(qtPoints t) + (if (ins t spp).2 then {spp} else 0))
    (k : Kids) :
    ((kidsPoints (insertKids ins k spp).1 : List SpikePair) : Multiset SpikePair) ≤
      ↑(kidsPoints k) + (if (insertKids ins k spp).2 then {spp} else 0) := by
  have h1 := hins k.nw
  have h2 := hins k.sw
  have h3 := hins k.ne
  have h4 := hins k.se
  by_cases b1 : (ins k.nw spp).2
  · rw [if_pos b1] at h1
    simp only [insertKids, b1, if_true]
    rw [kidsPoints_coe, kidsPoints_coe]
    calc (qtPoints (ins k.nw spp).1 : Multiset SpikePair) + ↑(qtPoints k.sw) +
          ↑(qtPoints k.ne) + ↑(qtPoints k.se)
        ≤ (↑(qtPoints k.nw) + {spp}) + ↑(qtPoints k.sw) + ↑(qtPoints k.ne) +
          ↑(qtPoints k.se) := by
          exact add_le_add_right (add_le_add_right (add_le_add_right h1 _) _) _
      _ = ↑(qtPoints k.nw) + ↑(qtPoints k.sw) + ↑(qtPoints k.ne) +
          ↑(qtPoints k.se) + {spp} := by abel
  · rw [if_neg b1, add_zero] at h1
    by_cases b2 : (ins k.sw spp).2
    · rw [if_pos b2] at h2
      simp only [insertKids, b1, b2, if_false, if_true, Bool.false_eq_true]
      rw [kidsPoints_coe, kidsPoints_coe]
      calc (qtPoints (ins k.nw spp).1 : Multiset SpikePair) +
            ↑(qtPoints (ins k.sw spp).1) + ↑(qtPoints k.ne) + ↑(qtPoints k.se)
          ≤ ↑(qtPoints k.nw) + (↑(qtPoints k.sw) + {spp}) + ↑(qtPoints k.ne) +
            ↑(qtPoints k.se) := by
            exact add_le_add_right (add_le_add_right (add_le_add h1 h2) _) _
        _ = ↑(qtPoints k.nw) + ↑(qtPoints k.sw) + ↑(qtPoints k.ne) +
            ↑(qtPoints k.se) + {spp} := by abel
    · rw [if_neg b2, add_zero] at h2
      by_cases b3 : (ins k.ne spp).2
      · rw [if_pos b3] at h3
        simp only [insertKids, b1, b2, b3, if_false, if_true, Bool.false_eq_true]
        rw [kidsPoints_coe, kidsPoints_coe]
        calc (qtPoints (ins k.nw spp).1 : Multiset SpikePair) +
              ↑(qtPoints (ins k.sw spp).1) + ↑(qtPoints (ins k.ne spp).1) +
              ↑(qtPoints k.se)
            ≤ ↑(qtPoints k.nw) + ↑(qtPoints k.sw) + (↑(qtPoints k.ne) + {spp}) +
              ↑(qtPoints k.se) := by
              exact add_le_add_right (add_le_add (add_le_add h1 h2) h3) _
          _ = ↑(qtPoints k.nw) + ↑(qtPoints k.sw) + ↑(qtPoints k.ne) +
              ↑(qtPoints k.se) + {spp} := by abel
      · rw [if_neg b3, add_zero] at h3
        simp only [insertKids, b1, b2, b3, if_false, Bool.false_eq_true]
        rw [kidsPoints_coe, kidsPoints_coe]
        refine le_trans (add_le_add (add_le_add (add_le_add h1 h2) h3) h4) ?_
        by_cases b4 : (ins k.se spp).2
        · rw [if_pos b4]
          refine le_of_eq ?_
          abel
        · rw [if_neg b4, add_zero, add_zero]

/-- Folding the cascade over a drain list adds at most the drained pairs
to the children's stored multiset. -/
theorem foldl_drain_points_le (ins : QuadTree → SpikePair → QuadTree × Bool)
    (hins : ∀ (t : QuadTree) (spp : SpikePair),
      ((qtPoints (ins t spp).1 : List SpikePair) : Multiset SpikePair) ≤
        ↑(qtPoints t) + (if (ins t spp).2 then {spp} else 0)) :
    ∀ (ps : List SpikePair) (k : Kids),
      ((kidsPoints (ps.foldl (fun k spp => (insertKids ins k spp).1) k) :
          List SpikePair) : Multiset SpikePair) ≤
        ↑(kidsPoints k) + ↑ps := by
  intro ps
  induction ps with
  | nil => intro k; simp
  | cons p rest ih =>
    intro k
    rw [List.foldl_cons]
    refine le_trans (ih _) ?_
    have hk : ((kidsPoints (insertKids ins k p).1 : List SpikePair) :
        Multiset SpikePair) ≤ ↑(kidsPoints k) + {p} := by
      refine le_trans (insertKids_points_le ins p (fun t => hins t p) k) ?_
      by_cases hb : (insertKids ins k p).2
      · rw [if_pos hb]
      · rw [if_neg hb, add_zero]
        exact le_add_right le_rfl
    calc ((kidsPoints (insertKids ins k p).1 : List SpikePair) :
          Multiset SpikePair) + ↑rest
        ≤ ↑(kidsPoints k) + {p} + ↑rest := add_le_add_right hk _
      _ = ↑(kidsPoints k) + ↑(p :: rest) := by
          rw [← Multiset.cons_coe, ← Multiset.singleton_add]
          abel

/-- Insertion adds at most the inserted pair (exactly when it returns
true) to the stored multiset. -/
theorem points_insert : ∀ (fuel : ℕ) (t : QuadTree) (spp : SpikePair),
    ((qtPoints (QTreeInsert fuel t spp).1 : List SpikePair) : Multiset SpikePair) ≤
      ↑(qtPoints t) + (if (QTreeInsert fuel t spp).2 then {spp} else 0)
  | 0, t, spp => by simp [insert_zero]
  | fuel + 1, .leaf b ps, spp => by
    rw [insert_succ_leaf]
    split
    · simp
    · split
      · have he : ((ps ++ [spp] : List SpikePair) : Multiset SpikePair) =
            ↑ps + {spp} := by
          rw [← Multiset.coe_singleton spp, ← Multiset.coe_add]
        simp [he]
      · have hd := foldl_drain_points_le (QTreeInsert fuel)
          (fun t s => points_insert fuel t s) ps
          ⟨.leaf (nwBox b) [], .leaf (swBox b) [], .leaf (neBox b) [], .leaf (seBox b) []⟩
        rw [← subdivide_eq_foldl] at hd
        have hd2 : ((kidsPoints (QTreeSubdivide (QTreeInsert fuel) b ps) :
            List SpikePair) : Multiset SpikePair) ≤ ↑ps := by
          refine le_trans hd ?_
          simp [kidsPoints]
        have hc := insertKids_points_le (QTreeInsert fuel) spp
          (fun t => points_insert fuel t spp) (QTreeSubdivide (QTreeInsert fuel) b ps)
        exact le_trans hc (add_le_add_right hd2 _)
  | fuel + 1, .node b nw sw ne se, spp => by
    rw [insert_succ_node]
    split
    · simp
    · exact insertKids_points_le (QTreeInsert fuel) spp
        (fun t => points_insert fuel t spp) ⟨nw, sw, ne, se⟩

/-- Weak form: the result's stored multiset is bounded by the input's
plus the inserted pair. -/
theorem points_insert_le (fuel : ℕ) (t : QuadTree) (spp : SpikePair) :
    ((qtPoints (QTreeInsert fuel t spp).1 : List SpikePair) : Multiset SpikePair) ≤
      ↑(qtPoints t) + {spp} := by
  refine le_trans (points_insert fuel t spp) ?_
  by_cases hb : (QTreeInsert fuel t spp).2
  · rw [if_pos hb]
  · rw [if_neg hb, add_zero]
    exact le_add_right le_rfl

/-- Every pair stored after an insertion was stored before or is the
inserted pair. -/
theorem mem_points_insert (fuel : ℕ) (t : QuadTree) (spp q : SpikePair)
    (h : q ∈ qtPoints (QTreeInsert fuel t spp).1) :
    q ∈ qtPoints t ∨ q = spp := by
  have := Multiset.mem_of_le (points_insert_le fuel t spp)
    (by simpa [Multiset.mem_coe] using h)
  simpa [Multiset.mem_add, Multiset.mem_coe, Multiset.mem_singleton] using this

/-! ### Preservation of per-node predicates through the cascade -/

theorem insertKids_pres (ins : QuadTree → SpikePair → QuadTree × Bool)
    (spp : SpikePair) (P : QuadTree → Prop)
    (hpres : ∀ t, P t → P (ins t spp).1)
    (hbd : ∀ t, ((ins t spp).1).bdry = t.bdry)
    (k : Kids) (h1 : P k.nw) (h2 : P k.sw) (h3 : P k.ne) (h4 : P k.se) :
    (P (insertKids ins k spp).1.nw ∧ P (insertKids ins k spp).1.sw ∧
     P (insertKids ins k spp).1.ne ∧ P (insertKids ins k spp).1.se) ∧
    ((insertKids ins k spp).1.nw.bdry = k.nw.bdry ∧
     (insertKids ins k spp).1.sw.bdry = k.sw.bdry ∧
     (insertKids ins k spp).1.ne.bdry = k.ne.bdry ∧
     (insertKids ins k spp).1.se.bdry = k.se.bdry) := by
  obtain ⟨c1, c2, c3, c4⟩ := insertKids_comp ins k spp
  refine ⟨⟨?_, ?_, ?_, ?_⟩, ?_, ?_, ?_, ?_⟩
  · rw [c1]; exact hpres _ h1
  · rcases c2 with h | h
    · rw [h]; exact h2
    · rw [h]; exact hpres _ h2
  · rcases c3 with h | h
    · rw [h]; exact h3
    · rw [h]; exact hpres _ h3
  · rcases c4 with h | h
    · rw [h]; exact h4
    · rw [h]; exact hpres _ h4
  · rw [c1]; exact hbd _
  · rcases c2 with h | h
    · rw [h]
    · rw [h]; exact hbd _
  · rcases c3 with h | h
    · rw [h]
    · rw [h]; exact hbd _
  · rcases c4 with h | h
    · rw [h]
    · rw [h]; exact hbd _

theorem foldl_drain_pres (ins : QuadTree → SpikePair → QuadTree × Bool)
    (P : QuadTree → Prop)
    (hpres : ∀ t spp, P t → P (ins t spp).1)
    (hbd : ∀ t spp, ((ins t spp).1).bdry = t.bdry) :
    ∀ (ps : List SpikePair) (k : Kids),
      P k.nw → P k.sw → P k.ne → P k.se →
      (P (ps.foldl (fun k spp => (insertKids ins k spp).1) k).nw ∧
       P (ps.foldl (fun k spp => (insertKids ins k spp).1) k).sw ∧
       P (ps.foldl (fun k spp => (insertKids ins k spp).1) k).ne ∧
       P (ps.foldl (fun k spp => (insertKids ins k spp).1) k).se) ∧
      ((ps.foldl (fun k spp => (insertKids ins k spp).1) k).nw.bdry = k.nw.bdry ∧
       (ps.foldl (fun k spp => (insertKids ins k spp).1) k).sw.bdry = k.sw.bdry ∧
       (ps.foldl (fun k spp => (insertKids ins k spp).1) k).ne.bdry = k.ne.bdry ∧
       (ps.foldl (fun k spp => (insertKids ins k spp).1) k).se.bdry = k.se.bdry) := by
  intro ps
  induction ps with
  | nil => intro k h1 h2 h3 h4; exact ⟨⟨h1, h2, h3, h4⟩, rfl, rfl, rfl, rfl⟩
  | cons p rest ih =>
    intro k h1 h2 h3 h4
    rw [List.foldl_cons]
    obtain ⟨⟨g1, g2, g3, g4⟩, e1, e2, e3, e4⟩ :=
      insertKids_pres ins p P (fun t => hpres t p) (fun t => hbd t p) k h1 h2 h3 h4
    obtain ⟨⟨f1, f2, f3, f4⟩, d1, d2, d3, d4⟩ := ih (insertKids ins k p).1 g1 g2 g3 g4
    exact ⟨⟨f1, f2, f3, f4⟩, d1.trans e1, d2.trans e2, d3.trans e3, d4.trans e4⟩

/-! ### Geometric invariant -/

theorem contains_true_of_not_false (bb : BoundingBox) (spp : SpikePair)
    (h : ¬ BBoxContainsPoint bb spp = false) : BBoxContainsPoint bb spp = true := by
  revert h
  cases BBoxContainsPoint bb spp <;> simp

theorem geom_insert : ∀ (fuel : ℕ) (t : QuadTree) (spp : SpikePair),
    Geom t → Geom (QTreeInsert fuel t spp).1
  | 0, t, spp => fun h => h
  | fuel + 1, .leaf b ps, spp => by
    intro hg
    rw [insert_succ_leaf]
    split
    · exact hg
    case isFalse hcont =>
      split
      · trivial
      · have hb : BBoxContainsPoint b spp = true := contains_true_of_not_false b spp hcont
        have hw : 0 ≤ b.w2 := le_of_lt (contains_w2_pos b spp hb)
        rw [subdivide_eq_foldl]
        obtain ⟨⟨g1, g2, g3, g4⟩, e1, e2, e3, e4⟩ :=
          foldl_drain_pres (QTreeInsert fuel) Geom
            (fun t s => geom_insert fuel t s) (fun t s => insert_bdry fuel t s) ps
            ⟨.leaf (nwBox b) [], .leaf (swBox b) [], .leaf (neBox b) [], .leaf (seBox b) []⟩
            trivial trivial trivial trivial
        obtain ⟨⟨f1, f2, f3, f4⟩, d1, d2, d3, d4⟩ :=
          insertKids_pres (QTreeInsert fuel) spp Geom
            (fun t => geom_insert fuel t spp) (fun t => insert_bdry fuel t spp)
            _ g1 g2 g3 g4
        refine ⟨?_, ?_, ?_, ?_, hw, f1, f2, f3, f4⟩
        · exact d1.trans e1
        · exact d2.trans e2
        · exact d3.trans e3
        · exact d4.trans e4
  | fuel + 1, .node b nw sw ne se, spp => by
    intro hg
    rw [insert_succ_node]
    split
    · exact hg
    · obtain ⟨e1, e2, e3, e4, hw, hnw, hsw, hne, hse⟩ := hg
      obtain ⟨⟨f1, f2, f3, f4⟩, d1, d2, d3, d4⟩ :=
        insertKids_pres (QTreeInsert fuel) spp Geom
          (fun t => geom_insert fuel t spp) (fun t => insert_bdry fuel t spp)
          ⟨nw, sw, ne, se⟩ hnw hsw hne hse
      exact ⟨d1.trans e1, d2.trans e2, d3.trans e3, d4.trans e4, hw, f1, f2, f3, f4⟩

theorem boxIn_child (r b cb : BoundingBox) (hin : BoxIn r b)
    (hw : cb.w2 = b.w2 / 2)
    (hx : |cb.c_x - b.c_x| = b.w2 / 2) (hy : |cb.c_y - b.c_y| = b.w2 / 2) :
    BoxIn r cb := by
  obtain ⟨h0, hx0, hy0⟩ := hin
  have hd2 : 0 ≤ b.w2 / 2 := by linarith
  refine ⟨by rw [hw]; exact hd2, ?_, ?_⟩
  · calc |cb.c_x - r.c_x| ≤ |cb.c_x - b.c_x| + |b.c_x - r.c_x| := abs_sub_le _ _ _
      _ ≤ b.w2 / 2 + (r.w2 - b.w2) := by rw [hx]; linarith
      _ = r.w2 - cb.w2 := by rw [hw]; ring
  · calc |cb.c_y - r.c_y| ≤ |cb.c_y - b.c_y| + |b.c_y - r.c_y| := abs_sub_le _ _ _
      _ ≤ b.w2 / 2 + (r.w2 - b.w2) := by rw [hy]; linarith
      _ = r.w2 - cb.w2 := by rw [hw]; ring

theorem boxIn_nwBox (r b : BoundingBox) (hin : BoxIn r b) : BoxIn r (nwBox b) := by
  have hd2 : 0 ≤ b.w2 / 2 := by have := hin.1; linarith
  refine boxIn_child r b (nwBox b) hin rfl ?_ ?_ <;>
    simp [nwBox, abs_of_nonneg, abs_of_nonpos, hd2]

theorem boxIn_swBox (r b : BoundingBox) (hin : BoxIn r b) : BoxIn r (swBox b) := by
  have hd2 : 0 ≤ b.w2 / 2 := by have := hin.1; linarith
  refine boxIn_child r b (swBox b) hin rfl ?_ ?_ <;>
    simp [swBox, abs_of_nonneg, abs_of_nonpos, hd2]

theorem boxIn_neBox (r b : BoundingBox) (hin : BoxIn r b) : BoxIn r (neBox b) := by
  have hd2 : 0 ≤ b.w2 / 2 := by have := hin.1; linarith
  refine boxIn_child r b (neBox b) hin rfl ?_ ?_ <;>
    simp [neBox, abs_of_nonneg, abs_of_nonpos, hd2]

theorem boxIn_seBox (r b : BoundingBox) (hin : BoxIn r b) : BoxIn r (seBox b) := by
  have hd2 : 0 ≤ b.w2 / 2 := by have := hin.1; linarith
  refine boxIn_child r b (seBox b) hin rfl ?_ ?_ <;>
    simp [seBox, abs_of_nonneg, abs_of_nonpos, hd2]

theorem intersects_of_boxIn (r b : BoundingBox) (hin : BoxIn r b) :
    BBoxIntersects b r = true := by
  obtain ⟨h0, hx, hy⟩ := hin
  apply intersects_of_abs_le
  · rw [abs_sub_comm]; linarith
  · rw [abs_sub_comm]; linarith

/-- Over a `Geom` tree whose own box really sits inside the query box,
the range query visits exactly the stored pairs (every node's box
intersects the query region). -/
theorem query_eq_points : ∀ (t : QuadTree) (r : BoundingBox),
    Geom t → BoxIn r t.bdry → QTreeMapQueryRange t r = qtPoints t
  | .leaf b ps, r => by
    intro _ hin
    have := intersects_of_boxIn r b hin
    simp [QTreeMapQueryRange, this]
  | .node b nw sw ne se, r => by
    intro hg hin
    obtain ⟨e1, e2, e3, e4, hw, hnw, hsw, hne, hse⟩ := hg
    have hint := intersects_of_boxIn r b hin
    have r1 := query_eq_points nw r hnw (by rw [e1]; exact boxIn_nwBox r b hin)
    have r2 := query_eq_points sw r hsw (by rw [e2]; exact boxIn_swBox r b hin)
    have r3 := query_eq_points ne r hne (by rw [e3]; exact boxIn_neBox r b hin)
    have r4 := query_eq_points se r hse (by rw [e4]; exact boxIn_seBox r b hin)
    simp [QTreeMapQueryRange, hint, r1, r2, r3, r4]

/-! ### Folded insertion facts -/

theorem insertList_bdry (fuel : ℕ) : ∀ (ps : List SpikePair) (t : QuadTree),
    (insertList fuel t ps).bdry = t.bdry := by
  intro ps
  induction ps with
  | nil => intro t; rfl
  | cons p rest ih =>
    intro t
    rw [insertList_cons]
    exact (ih _).trans (insert_bdry fuel t p)

theorem insertList_geom (fuel : ℕ) : ∀ (ps : List SpikePair) (t : QuadTree),
    Geom t → Geom (insertList fuel t ps) := by
  intro ps
  induction ps with
  | nil => intro t h; exact h
  | cons p rest ih =>
    intro t h
    rw [insertList_cons]
    exact ih _ (geom_insert fuel t p h)

theorem points_insertList_le (fuel : ℕ) : ∀ (ps : List SpikePair) (t : QuadTree),
    ((qtPoints (insertList fuel t ps) : List SpikePair) : Multiset SpikePair) ≤
      ↑(qtPoints t) + ↑ps := by
  intro ps
  induction ps with
  | nil => intro t; simp [insertList_nil]
  | cons p rest ih =>
    intro t
    rw [insertList_cons]
    refine le_trans (ih _) ?_
    calc ((qtPoints (QTreeInsert fuel t p).1 : List SpikePair) : Multiset SpikePair) +
          ↑rest
        ≤ (↑(qtPoints t) + {p}) + ↑rest := add_le_add_right (points_insert_le fuel t p) _
      _ = ↑(qtPoints t) + ↑(p :: rest) := by
          rw [← Multiset.cons_coe, ← Multiset.singleton_add]
          abel

theorem contains_false_of_nonpos (bb : BoundingBox) (spp : SpikePair)
    (hw : bb.w2 ≤ 0) : BBoxContainsPoint bb spp = false := by
  cases h : BBoxContainsPoint bb spp
  · rfl
  · exact absurd (contains_w2_pos bb spp h) (by linarith)

theorem insert_leaf_nonpos (fuel : ℕ) (b : BoundingBox) (l : List SpikePair)
    (spp : SpikePair) (hw : b.w2 ≤ 0) :
    QTreeInsert fuel (.leaf b l) spp = (.leaf b l, false) := by
  cases fuel with
  | zero => rfl
  | succ fuel =>
    rw [insert_succ_leaf, if_pos (contains_false_of_nonpos b spp hw)]

theorem insertList_leaf_nonpos (fuel : ℕ) (b : BoundingBox) (hw : b.w2 ≤ 0) :
    ∀ (ps : List SpikePair) (l : List SpikePair),
    insertList fuel (.leaf b l) ps = .leaf b l := by
  intro ps
  induction ps with
  | nil => intro l; rfl
  | cons p rest ih =>
    intro l
    rw [insertList_cons, insert_leaf_nonpos fuel b l p hw]
    exact ih l

/-- C3, amended: the root-box query visits exactly the stored pairs (as
lists, hence as multisets), and the stored multiset is bounded by the
inserted multiset; the counterexample shows the bound can be strict. -/
theorem c3_roundtrip_corrected (fuel : ℕ) (b : BoundingBox) (ps : List SpikePair) :
    QTreeMapQueryRange (insertList fuel (QTreeCreate b) ps) b =
      qtPoints (insertList fuel (QTreeCreate b) ps) ∧
    ((qtPoints (insertList fuel (QTreeCreate b) ps) : List SpikePair) :
        Multiset SpikePair) ≤ ↑ps := by
  constructor
  · by_cases hw : 0 ≤ b.w2
    · apply query_eq_points
      · exact insertList_geom fuel ps (QTreeCreate b) trivial
      · rw [insertList_bdry]
        show BoxIn b b
        refine ⟨hw, ?_, ?_⟩ <;> simp
    · rw [show QTreeCreate b = QuadTree.leaf b [] from rfl,
        insertList_leaf_nonpos fuel b (by linarith) ps []]
      simp [QTreeMapQueryRange]
  · refine le_trans (points_insertList_le fuel ps (QTreeCreate b)) ?_
    simp [QTreeCreate]

/-! ### Storage invariant and the margin visit guarantee -/

theorem storedOK_leaf (b : BoundingBox) (ps : List SpikePair) :
    StoredOK (.leaf b ps) ↔ ∀ p ∈ ps, BBoxContainsPoint b p = true := Iff.rfl

theorem storedOK_node (b : BoundingBox) (nw sw ne se : QuadTree) :
    StoredOK (.node b nw sw ne se) ↔
      (∀ p ∈ qtPoints nw ++ qtPoints sw ++ qtPoints ne ++ qtPoints se,
        BBoxContainsPoint b p = true) ∧
      StoredOK nw ∧ StoredOK sw ∧ StoredOK ne ∧ StoredOK se := Iff.rfl

theorem mem_of_le_add_singleton (p spp : SpikePair) (l : List SpikePair)
    (s : Multiset SpikePair) (hle : s ≤ ↑l + {spp}) (hp : p ∈ s) :
    p ∈ l ∨ p = spp := by
  have := Multiset.mem_of_le hle hp
  simpa [Multiset.mem_add, Multiset.mem_coe, Multiset.mem_singleton] using this

theorem stored_insert : ∀ (fuel : ℕ) (t : QuadTree) (spp : SpikePair),
    StoredOK t → StoredOK (QTreeInsert fuel t spp).1
  | 0, _, _ => fun h => h
  | fuel + 1, .leaf b ps, spp => by
    intro hs
    rw [insert_succ_leaf]
    split
    · exact hs
    case isFalse hcont =>
      have hb : BBoxContainsPoint b spp = true := contains_true_of_not_false b spp hcont
      split
      · rw [storedOK_leaf]
        intro p hp
        rcases List.mem_append.mp hp with h | h
        · exact hs p h
        · rw [List.mem_singleton.mp h]; exact hb
      · have hd := foldl_drain_points_le (QTreeInsert fuel)
          (fun t s => points_insert fuel t s) ps
          ⟨.leaf (nwBox b) [], .leaf (swBox b) [], .leaf (neBox b) [], .leaf (seBox b) []⟩
        rw [← subdivide_eq_foldl] at hd
        have hd2 : ((kidsPoints (QTreeSubdivide (QTreeInsert fuel) b ps) :
            List SpikePair) : Multiset SpikePair) ≤ ↑ps := by
          refine le_trans hd ?_
          simp [kidsPoints]
        have hc := insertKids_points_le (QTreeInsert fuel) spp
          (fun t => points_insert fuel t spp) (QTreeSubdivide (QTreeInsert fuel) b ps)
        have hkle : ((kidsPoints (insertKids (QTreeInsert fuel)
            (QTreeSubdivide (QTreeInsert fuel) b ps) spp).1 : List SpikePair) :
            Multiset SpikePair) ≤ ↑ps + {spp} := by
          refine le_trans hc ?_
          refine le_trans (add_le_add_right hd2 _) ?_
          by_cases hfl : (insertKids (QTreeInsert fuel)
              (QTreeSubdivide (QTreeInsert fuel) b ps) spp).2
          · rw [if_pos hfl]
          · rw [if_neg hfl, add_zero]
            exact le_add_right le_rfl
        rw [subdivide_eq_foldl]
        obtain ⟨⟨g1, g2, g3, g4⟩, _, _, _, _⟩ :=
          foldl_drain_pres (QTreeInsert fuel) StoredOK
            (fun t s => stored_insert fuel t s) (fun t s => insert_bdry fuel t s) ps
            ⟨.leaf (nwBox b) [], .leaf (swBox b) [], .leaf (neBox b) [], .leaf (seBox b) []⟩
            (by simp [storedOK_leaf]) (by simp [storedOK_leaf])
            (by simp [storedOK_leaf]) (by simp [storedOK_leaf])
        obtain ⟨⟨f1, f2, f3, f4⟩, _, _, _, _⟩ :=
          insertKids_pres (QTreeInsert fuel) spp StoredOK
            (fun t => stored_insert fuel t spp) (fun t => insert_bdry fuel t spp)
            _ g1 g2 g3 g4
        rw [storedOK_node]
        refine ⟨?_, f1, f2, f3, f4⟩
        intro p hp
        rw [← subdivide_eq_foldl] at hp
        have hp2 : p ∈ kidsPoints (insertKids (QTreeInsert fuel)
            (QTreeSubdivide (QTreeInsert fuel) b ps) spp).1 := hp
        rcases mem_of_le_add_singleton p spp ps _ hkle
            (by simpa [Multiset.mem_coe] using hp2) with h | h
        · exact hs p h
        · rw [h]; exact hb
  | fuel + 1, .node b nw sw ne se, spp => by
    intro hs
    rw [insert_succ_node]
    split
    · exact hs
    case isFalse hcont =>
      have hb : BBoxContainsPoint b spp = true := contains_true_of_not_false b spp hcont
      obtain ⟨hall, hnw, hsw, hne, hse⟩ := hs
      obtain ⟨⟨f1, f2, f3, f4⟩, _, _, _, _⟩ :=
        insertKids_pres (QTreeInsert fuel) spp StoredOK
          (fun t => stored_insert fuel t spp) (fun t => insert_bdry fuel t spp)
          ⟨nw, sw, ne, se⟩ hnw hsw hne hse
      have hc := insertKids_points_le (QTreeInsert fuel) spp
        (fun t => points_insert fuel t spp) ⟨nw, sw, ne, se⟩
      have hkle : ((kidsPoints (insertKids (QTreeInsert fuel) ⟨nw, sw, ne, se⟩ spp).1 :
          List SpikePair) : Multiset SpikePair) ≤
          ↑(kidsPoints ⟨nw, sw, ne, se⟩) + {spp} := by
        refine le_trans hc ?_
        by_cases hfl : (insertKids (QTreeInsert fuel) ⟨nw, sw, ne, se⟩ spp).2
        · rw [if_pos hfl]
        · rw [if_neg hfl, add_zero]
          exact le_add_right le_rfl
      rw [storedOK_node]
      refine ⟨?_, f1, f2, f3, f4⟩
      intro p hp
      have hp2 : p ∈ kidsPoints (insertKids (QTreeInsert fuel) ⟨nw, sw, ne, se⟩ spp).1 := hp
      rcases mem_of_le_add_singleton p spp (kidsPoints ⟨nw, sw, ne, se⟩) _ hkle
          (by simpa [Multiset.mem_coe] using hp2) with h | h
      · exact hall p h
      · rw [h]; exact hb

theorem insertList_stored (fuel : ℕ) : ∀ (ps : List SpikePair) (t : QuadTree),
    StoredOK t → StoredOK (insertList fuel t ps) := by
  intro ps
  induction ps with
  | nil => intro t h; exact h
  | cons p rest ih =>
    intro t h
    rw [insertList_cons]
    exact ih _ (stored_insert fuel t p h)

/-- Over a `StoredOK` tree, the range query visits every stored pair that
sits inside the region with a unit margin per axis: the margin absorbs
the at-most-one-unit loss of the truncated containment, so the truncated
intersect test succeeds at every node on the pair's path. -/
theorem visit_of_margin : ∀ (t : QuadTree) (r : BoundingBox) (p : SpikePair),
    StoredOK t → p ∈ qtPoints t →
    |(p.sp1.ts : ℚ) - r.c_x| ≤ r.w2 - 1 → |(p.sp2.ts : ℚ) - r.c_y| ≤ r.w2 - 1 →
    p ∈ QTreeMapQueryRange t r
  | .leaf b ps, r, p => by
    intro hs hp hx hy
    have hcont := hs p hp
    obtain ⟨ax, ay⟩ := contains_abs_lt b p hcont
    have hint : BBoxIntersects b r = true := by
      apply intersects_of_abs_le
      · calc |r.c_x - b.c_x| ≤ |r.c_x - (p.sp1.ts : ℚ)| + |(p.sp1.ts : ℚ) - b.c_x| :=
            abs_sub_le _ _ _
          _ ≤ (r.w2 - 1) + (b.w2 + 1) := by
            rw [abs_sub_comm]
            exact add_le_add hx (le_of_lt ax)
          _ = b.w2 + r.w2 := by ring
      · calc |r.c_y - b.c_y| ≤ |r.c_y - (p.sp2.ts : ℚ)| + |(p.sp2.ts : ℚ) - b.c_y| :=
            abs_sub_le _ _ _
          _ ≤ (r.w2 - 1) + (b.w2 + 1) := by
            rw [abs_sub_comm]
            exact add_le_add hy (le_of_lt ay)
          _ = b.w2 + r.w2 := by ring
    simpa [QTreeMapQueryRange, hint] using hp
  | .node b nw sw ne se, r, p => by
    intro hs hp hx hy
    obtain ⟨hall, hnw, hsw, hne, hse⟩ := hs
    have hcont := hall p hp
    obtain ⟨ax, ay⟩ := contains_abs_lt b p hcont
    have hint : BBoxIntersects b r = true := by
      apply intersects_of_abs_le
      · calc |r.c_x - b.c_x| ≤ |r.c_x - (p.sp1.ts : ℚ)| + |(p.sp1.ts : ℚ) - b.c_x| :=
            abs_sub_le _ _ _
          _ ≤ (r.w2 - 1) + (b.w2 + 1) := by
            rw [abs_sub_comm]
            exact add_le_add hx (le_of_lt ax)
          _ = b.w2 + r.w2 := by ring
      · calc |r.c_y - b.c_y| ≤ |r.c_y - (p.sp2.ts : ℚ)| + |(p.sp2.ts : ℚ) - b.c_y| :=
            abs_sub_le _ _ _
          _ ≤ (r.w2 - 1) + (b.w2 + 1) := by
            rw [abs_sub_comm]
            exact add_le_add hy (le_of_lt ay)
          _ = b.w2 + r.w2 := by ring
    have hq : QTreeMapQueryRange (QuadTree.node b nw sw ne se) r =
        QTreeMapQueryRange nw r ++ QTreeMapQueryRange sw r ++
        QTreeMapQueryRange ne r ++ QTreeMapQueryRange se r := by
      simp [QTreeMapQueryRange, hint]
    rw [hq]
    rcases List.mem_append.mp hp with h123 | h4
    · rcases List.mem_append.mp h123 with h12 | h3
      · rcases List.mem_append.mp h12 with h1 | h2
        · exact List.mem_append.mpr (Or.inl (List.mem_append.mpr (Or.inl
            (List.mem_append.mpr (Or.inl (visit_of_margin nw r p hnw h1 hx hy))))))
        · exact List.mem_append.mpr (Or.inl (List.mem_append.mpr (Or.inl
            (List.mem_append.mpr (Or.inr (visit_of_margin sw r p hsw h2 hx hy))))))
      · exact List.mem_append.mpr (Or.inl (List.mem_append.mpr (Or.inr
          (visit_of_margin ne r p hne h3 hx hy))))
    · exact List.mem_append.mpr (Or.inr (visit_of_margin se r p hse h4 hx hy))

/-- C5, amended: over any tree built by insertions from `QTreeCreate`,
every stored pair lying inside the query region with a unit margin per
axis is visited. -/
theorem c5_range_visit_corrected (fuel : ℕ) (b : BoundingBox)
    (ps : List SpikePair) (r : BoundingBox) (p : SpikePair)
    (hmem : p ∈ qtPoints (insertList fuel (QTreeCreate b) ps))
    (hx : |(p.sp1.ts : ℚ) - r.c_x| ≤ r.w2 - 1)
    (hy : |(p.sp2.ts : ℚ) - r.c_y| ≤ r.w2 - 1) :
    p ∈ QTreeMapQueryRange (insertList fuel (QTreeCreate b) ps) r := by
  refine visit_of_margin _ r p ?_ hmem hx hy
  refine insertList_stored fuel ps (QTreeCreate b) ?_
  rw [show QTreeCreate b = QuadTree.leaf b [] from rfl, storedOK_leaf]
  simp

/-- Witness for `c5_range_visit_corrected`: a stored pair with unit
margin inside the region is visited. -/
theorem c5_range_visit_corrected_witness :
    pairAt 1 11 ∈ QTreeMapQueryRange
      (insertList 16 (QTreeCreate ⟨0, 10, 4⟩) [pairAt 1 11]) ⟨1, 11, 3 / 2⟩ :=
  c5_range_visit_corrected 16 ⟨0, 10, 4⟩ [pairAt 1 11] ⟨1, 11, 3 / 2⟩
    (pairAt 1 11) (by decide) (by decide) (by decide)

/-! ### The drain loop of a subdivision never overflows a child -/

theorem wfT_leaf (b : BoundingBox) (ps : List SpikePair) :
    WfT (.leaf b ps) ↔
      ((∀ p ∈ ps, BBoxContainsPoint b p = true) ∧ ps.length ≤ QT_MAX_CAP) := Iff.rfl

theorem wfT_node (b : BoundingBox) (nw sw ne se : QuadTree) :
    WfT (.node b nw sw ne se) ↔
      (nw.bdry = nwBox b ∧ sw.bdry = swBox b ∧ ne.bdry = neBox b ∧
       se.bdry = seBox b ∧ 1 < b.w2 ∧ WfT nw ∧ WfT sw ∧ WfT ne ∧ WfT se) := Iff.rfl

theorem leaf_insert_nonfull (f : ℕ) (hf : 1 ≤ f) (b : BoundingBox)
    (l : List SpikePair) (hl : l.length < QT_MAX_CAP) (spp : SpikePair) :
    QTreeInsert f (.leaf b l) spp =
      if BBoxContainsPoint b spp = true then (.leaf b (l ++ [spp]), true)
      else (.leaf b l, false) := by
  obtain ⟨f2, rfl⟩ : ∃ f2, f = f2 + 1 := ⟨f - 1, by omega⟩
  rw [insert_succ_leaf]
  cases hb : BBoxContainsPoint b spp
  · simp [hb]
  · simp [hb, hl]

theorem insertKids_zero (k : Kids) (spp : SpikePair) :
    insertKids (QTreeInsert 0) k spp = (k, false) := rfl

theorem drain_zero (spp : SpikePair) : ∀ (ps : List SpikePair) (k : Kids),
    ps.foldl (fun k spp => (insertKids (QTreeInsert 0) k spp).1) k = k := by
  intro ps
  induction ps with
  | nil => intro k; rfl
  | cons p rest ih =>
    intro k
    rw [List.foldl_cons]
    exact ih _

/-- One drain step over four non-full well-formed leaf children is
fuel-independent for positive fuel and appends the pair to the first
child that contains it, keeping all children leaves. -/
theorem drain_step_spec (f : ℕ) (hf : 1 ≤ f) (B1 B2 B3 B4 : BoundingBox)
    (l1 l2 l3 l4 : List SpikePair) (h1 : l1.length < QT_MAX_CAP)
    (h2 : l2.length < QT_MAX_CAP) (h3 : l3.length < QT_MAX_CAP)
    (h4 : l4.length < QT_MAX_CAP) (spp : SpikePair) :
    insertKids (QTreeInsert f) ⟨.leaf B1 l1, .leaf B2 l2, .leaf B3 l3, .leaf B4 l4⟩ spp =
      if BBoxContainsPoint B1 spp = true then
        (⟨.leaf B1 (l1 ++ [spp]), .leaf B2 l2, .leaf B3 l3, .leaf B4 l4⟩, true)
      else if BBoxContainsPoint B2 spp = true then
        (⟨.leaf B1 l1, .leaf B2 (l2 ++ [spp]), .leaf B3 l3, .leaf B4 l4⟩, true)
      else if BBoxContainsPoint B3 spp = true then
        (⟨.leaf B1 l1, .leaf B2 l2, .leaf B3 (l3 ++ [spp]), .leaf B4 l4⟩, true)
      else if BBoxContainsPoint B4 spp = true then
        (⟨.leaf B1 l1, .leaf B2 l2, .leaf B3 l3, .leaf B4 (l4 ++ [spp])⟩, true)
      else (⟨.leaf B1 l1, .leaf B2 l2, .leaf B3 l3, .leaf B4 l4⟩, false) := by
  have e1 := leaf_insert_nonfull f hf B1 l1 h1 spp
  have e2 := leaf_insert_nonfull f hf B2 l2 h2 spp
  have e3 := leaf_insert_nonfull f hf B3 l3 h3 spp
  have e4 := leaf_insert_nonfull f hf B4 l4 h4 spp
  by_cases hb1 : BBoxContainsPoint B1 spp = true
  · rw [if_pos hb1] at e1
    simp [insertKids, e1, hb1]
  · rw [if_neg hb1] at e1
    by_cases hb2 : BBoxContainsPoint B2 spp = true
    · rw [if_pos hb2] at e2
      simp [insertKids, e1, e2, hb1, hb2]
    · rw [if_neg hb2] at e2
      by_cases hb3 : BBoxContainsPoint B3 spp = true
      · rw [if_pos hb3] at e3
        simp [insertKids, e1, e2, e3, hb1, hb2, hb3]
      · rw [if_neg hb3] at e3
        by_cases hb4 : BBoxContainsPoint B4 spp = true
        · rw [if_pos hb4] at e4
          simp [insertKids, e1, e2, e3, e4, hb1, hb2, hb3, hb4]
        · rw [if_neg hb4] at e4
          simp [insertKids, e1, e2, e3, e4, hb1, hb2, hb3, hb4]

/-- The whole drain is fuel-independent for positive fuel: children stay
well-formed leaves within capacity (the drained list plus the already
stored pairs fit in one leaf). -/
theorem drain_fold_spec (f g : ℕ) (hf : 1 ≤ f) (hg : 1 ≤ g) :
    ∀ (ps : List SpikePair) (B1 B2 B3 B4 : BoundingBox)
      (l1 l2 l3 l4 : List SpikePair),
    l1.length + l2.length + l3.length + l4.length + ps.length ≤ QT_MAX_CAP →
    (∀ p ∈ l1, BBoxContainsPoint B1 p = true) →
    (∀ p ∈ l2, BBoxContainsPoint B2 p = true) →
    (∀ p ∈ l3, BBoxContainsPoint B3 p = true) →
    (∀ p ∈ l4, BBoxContainsPoint B4 p = true) →
    ∃ m1 m2 m3 m4 : List SpikePair,
      ps.foldl (fun k spp => (insertKids (QTreeInsert f) k spp).1)
          ⟨.leaf B1 l1, .leaf B2 l2, .leaf B3 l3, .leaf B4 l4⟩ =
        ⟨.leaf B1 m1, .leaf B2 m2, .leaf B3 m3, .leaf B4 m4⟩ ∧
      ps.foldl (fun k spp => (insertKids (QTreeInsert g) k spp).1)
          ⟨.leaf B1 l1, .leaf B2 l2, .leaf B3 l3, .leaf B4 l4⟩ =
        ⟨.leaf B1 m1, .leaf B2 m2, .leaf B3 m3, .leaf B4 m4⟩ ∧
      (m1.length ≤ QT_MAX_CAP ∧ m2.length ≤ QT_MAX_CAP ∧
       m3.length ≤ QT_MAX_CAP ∧ m4.length ≤ QT_MAX_CAP) ∧
      (∀ p ∈ m1, BBoxContainsPoint B1 p = true) ∧
      (∀ p ∈ m2, BBoxContainsPoint B2 p = true) ∧
      (∀ p ∈ m3, BBoxContainsPoint B3 p = true) ∧
      (∀ p ∈ m4, BBoxContainsPoint B4 p = true) := by
  intro ps
  induction ps with
  | nil =>
    intro B1 B2 B3 B4 l1 l2 l3 l4 hbud hc1 hc2 hc3 hc4
    simp only [List.length_nil, add_zero] at hbud
    exact ⟨l1, l2, l3, l4, rfl, rfl, by omega, hc1, hc2, hc3, hc4⟩
  | cons p rest ih =>
    intro B1 B2 B3 B4 l1 l2 l3 l4 hbud hc1 hc2 hc3 hc4
    have hlen : rest.length + 1 = (p :: rest).length := by simp
    have h1 : l1.length < QT_MAX_CAP := by simp [QT_MAX_CAP] at hbud ⊢; omega
    have h2 : l2.length < QT_MAX_CAP := by simp [QT_MAX_CAP] at hbud ⊢; omega
    have h3 : l3.length < QT_MAX_CAP := by simp [QT_MAX_CAP] at hbud ⊢; omega
    have h4 : l4.length < QT_MAX_CAP := by simp [QT_MAX_CAP] at hbud ⊢; omega
    rw [List.foldl_cons, List.foldl_cons,
      drain_step_spec f hf B1 B2 B3 B4 l1 l2 l3 l4 h1 h2 h3 h4 p,
      drain_step_spec g hg B1 B2 B3 B4 l1 l2 l3 l4 h1 h2 h3 h4 p]
    by_cases hb1 : BBoxContainsPoint B1 p = true
    · rw [if_pos hb1]
      refine ih B1 B2 B3 B4 (l1 ++ [p]) l2 l3 l4 ?_ ?_ hc2 hc3 hc4
      · simp at hbud ⊢; omega
      · intro q hq
        rcases List.mem_append.mp hq with h | h
        · exact hc1 q h
        · rw [List.mem_singleton.mp h]; exact hb1
    · rw [if_neg hb1]
      by_cases hb2 : BBoxContainsPoint B2 p = true
      · rw [if_pos hb2]
        refine ih B1 B2 B3 B4 l1 (l2 ++ [p]) l3 l4 ?_ hc1 ?_ hc3 hc4
        · simp at hbud ⊢; omega
        · intro q hq
          rcases List.mem_append.mp hq with h | h
          · exact hc2 q h
          · rw [List.mem_singleton.mp h]; exact hb2
      · rw [if_neg hb2]
        by_cases hb3 : BBoxContainsPoint B3 p = true
        · rw [if_pos hb3]
          refine ih B1 B2 B3 B4 l1 l2 (l3 ++ [p]) l4 ?_ hc1 hc2 ?_ hc4
          · simp at hbud ⊢; omega
          · intro q hq
            rcases List.mem_append.mp hq with h | h
            · exact hc3 q h
            · rw [List.mem_singleton.mp h]; exact hb3
        · rw [if_neg hb3]
          by_cases hb4 : BBoxContainsPoint B4 p = true
          · rw [if_pos hb4]
            refine ih B1 B2 B3 B4 l1 l2 l3 (l4 ++ [p]) ?_ hc1 hc2 hc3 ?_
            · simp at hbud ⊢; omega
            · intro q hq
              rcases List.mem_append.mp hq with h | h
              · exact hc4 q h
              · rw [List.mem_singleton.mp h]; exact hb4
          · rw [if_neg hb4]
            refine ih B1 B2 B3 B4 l1 l2 l3 l4 ?_ hc1 hc2 hc3 hc4
            simp at hbud ⊢; omega

/-! ### Well-formedness is preserved on pairwise-distinct input -/

theorem le_four_1 {α : Type} (a b c d : Multiset α) : a ≤ a + b + c + d := by
  calc a ≤ a + (b + c + d) := le_add_right le_rfl
    _ = a + b + c + d := by abel

theorem le_four_2 {α : Type} (a b c d : Multiset α) : b ≤ a + b + c + d := by
  calc b ≤ b + (a + c + d) := le_add_right le_rfl
    _ = a + b + c + d := by abel

theorem le_four_3 {α : Type} (a b c d : Multiset α) : c ≤ a + b + c + d := by
  calc c ≤ c + (a + b + d) := le_add_right le_rfl
    _ = a + b + c + d := by abel

theorem le_four_4 {α : Type} (a b c d : Multiset α) : d ≤ a + b + c + d := by
  calc d ≤ d + (a + b + c) := le_add_right le_rfl
    _ = a + b + c + d := by abel

theorem nodup_cons_of_le (x : ℤ × ℤ) (s t : Multiset (ℤ × ℤ)) (hle : s ≤ t)
    (h : (x ::ₘ t).Nodup) : (x ::ₘ s).Nodup :=
  Multiset.nodup_of_le (Multiset.cons_le_cons x hle) h

theorem coe_map_le_of_le (l l2 : List SpikePair)
    (h : (↑l : Multiset SpikePair) ≤ ↑l2) :
    ((l.map pointOf : List (ℤ × ℤ)) : Multiset (ℤ × ℤ)) ≤ ↑(l2.map pointOf) := by
  have := Multiset.map_le_map (f := pointOf) h
  simpa [Multiset.map_coe] using this

theorem coe_four_append (m1 m2 m3 m4 : List SpikePair) :
    ((m1 ++ m2 ++ m3 ++ m4 : List SpikePair) : Multiset SpikePair) =
      ↑m1 + ↑m2 + ↑m3 + ↑m4 := by
  simp

theorem wf_insert : ∀ (fuel : ℕ) (t : QuadTree) (spp : SpikePair),
    WfT t →
    ((pointOf spp) ::ₘ (((qtPoints t).map pointOf : List (ℤ × ℤ)) :
      Multiset (ℤ × ℤ))).Nodup →
    WfT (QTreeInsert fuel t spp).1
  | 0, _, _ => fun h _ => h
  | fuel + 1, .leaf b ps, spp => by
    intro hw hnd
    simp only [qtPoints_leaf] at hnd
    rw [insert_succ_leaf]
    split
    · exact hw
    case isFalse hcont =>
      have hb := contains_true_of_not_false b spp hcont
      split
      case isTrue hlen =>
        rw [wfT_leaf]
        constructor
        · intro p hp
          rcases List.mem_append.mp hp with h | h
          · exact hw.1 p h
          · rw [List.mem_singleton.mp h]; exact hb
        · simp only [List.length_append, List.length_singleton]
          omega
      case isFalse hlen =>
        have hps4 : ps.length = QT_MAX_CAP := le_antisymm hw.2 (le_of_not_lt hlen)
        have hcont5 : ∀ p ∈ ps ++ [spp], BBoxContainsPoint b p = true := by
          intro p hp
          rcases List.mem_append.mp hp with h | h
          · exact hw.1 p h
          · rw [List.mem_singleton.mp h]; exact hb
        have hxA : (pointOf spp :: ps.map pointOf : List (ℤ × ℤ)).Nodup := by
          rw [← Multiset.coe_nodup, ← Multiset.cons_coe]
          exact hnd
        have hnd5 : ((ps ++ [spp]).map pointOf).Nodup := by
          rw [List.map_append]
          exact (List.perm_append_singleton _ _).symm.nodup hxA
        have hgt : 1 < b.w2 := by
          by_contra hle
          push_neg at hle
          have h5 := contained_nodup_length_le b (ps ++ [spp]) hle hcont5 hnd5
          rw [List.length_append, hps4] at h5
          simp [QT_MAX_CAP] at h5
        rcases Nat.eq_zero_or_pos fuel with hf0 | hfpos
        · subst hf0
          rw [subdivide_eq_foldl, drain_zero spp ps]
          simp only [insertKids_zero]
          rw [wfT_node]
          refine ⟨rfl, rfl, rfl, rfl, hgt, ?_, ?_, ?_, ?_⟩ <;>
            (rw [wfT_leaf]; exact ⟨by simp, by simp [QT_MAX_CAP]⟩)
        · obtain ⟨m1, m2, m3, m4, heqf, _, ⟨hm1, hm2, hm3, hm4⟩, hq1, hq2, hq3, hq4⟩ :=
            drain_fold_spec fuel fuel hfpos hfpos ps (nwBox b) (swBox b) (neBox b)
              (seBox b) [] [] [] [] (by simp [hps4]) (by simp) (by simp) (by simp)
              (by simp)
          have hd := foldl_drain_points_le (QTreeInsert fuel)
            (fun t s => points_insert fuel t s) ps
            ⟨.leaf (nwBox b) [], .leaf (swBox b) [], .leaf (neBox b) [],
              .leaf (seBox b) []⟩
          rw [heqf] at hd
          have hdle : ((m1 ++ m2 ++ m3 ++ m4 : List SpikePair) :
              Multiset SpikePair) ≤ ↑ps := by
            refine le_trans ?_ (le_trans hd ?_)
            · exact le_of_eq rfl
            · simp [kidsPoints]
          rw [coe_four_append] at hdle
          have hdm1 : (↑m1 : Multiset SpikePair) ≤ ↑ps :=
            le_trans (le_four_1 _ _ _ _) hdle
          have hdm2 : (↑m2 : Multiset SpikePair) ≤ ↑ps :=
            le_trans (le_four_2 _ _ _ _) hdle
          have hdm3 : (↑m3 : Multiset SpikePair) ≤ ↑ps :=
            le_trans (le_four_3 _ _ _ _) hdle
          have hdm4 : (↑m4 : Multiset SpikePair) ≤ ↑ps :=
            le_trans (le_four_4 _ _ _ _) hdle
          have nd1 := nodup_cons_of_le (pointOf spp) _ _ (coe_map_le_of_le m1 ps hdm1) hnd
          have nd2 := nodup_cons_of_le (pointOf spp) _ _ (coe_map_le_of_le m2 ps hdm2) hnd
          have nd3 := nodup_cons_of_le (pointOf spp) _ _ (coe_map_le_of_le m3 ps hdm3) hnd
          have nd4 := nodup_cons_of_le (pointOf spp) _ _ (coe_map_le_of_le m4 ps hdm4) hnd
          rw [subdivide_eq_foldl, heqf]
          obtain ⟨c1, c2, c3, c4⟩ := insertKids_comp (QTreeInsert fuel)
            ⟨.leaf (nwBox b) m1, .leaf (swBox b) m2, .leaf (neBox b) m3,
              .leaf (seBox b) m4⟩ spp
          rw [wfT_node]
          refine ⟨?_, ?_, ?_, ?_, hgt, ?_, ?_, ?_, ?_⟩
          · rw [c1, insert_bdry]; rfl
          · rcases c2 with h | h
            · rw [h]; rfl
            · rw [h, insert_bdry]; rfl
          · rcases c3 with h | h
            · rw [h]; rfl
            · rw [h, insert_bdry]; rfl
          · rcases c4 with h | h
            · rw [h]; rfl
            · rw [h, insert_bdry]; rfl
          · rw [c1]
            exact wf_insert fuel _ spp (wfT_leaf _ _ |>.mpr ⟨hq1, hm1⟩)
              (by simpa [qtPoints_leaf] using nd1)
          · rcases c2 with h | h
            · rw [h]; exact (wfT_leaf _ _).mpr ⟨hq2, hm2⟩
            · rw [h]
              exact wf_insert fuel _ spp ((wfT_leaf _ _).mpr ⟨hq2, hm2⟩)
                (by simpa [qtPoints_leaf] using nd2)
          · rcases c3 with h | h
            · rw [h]; exact (wfT_leaf _ _).mpr ⟨hq3, hm3⟩
            · rw [h]
              exact wf_insert fuel _ spp ((wfT_leaf _ _).mpr ⟨hq3, hm3⟩)
                (by simpa [qtPoints_leaf] using nd3)
          · rcases c4 with h | h
            · rw [h]; exact (wfT_leaf _ _).mpr ⟨hq4, hm4⟩
            · rw [h]
              exact wf_insert fuel _ spp ((wfT_leaf _ _).mpr ⟨hq4, hm4⟩)
                (by simpa [qtPoints_leaf] using nd4)
  | fuel + 1, .node b nw sw ne se, spp => by
    intro hw hnd
    rw [insert_succ_node]
    split
    · exact hw
    · obtain ⟨e1, e2, e3, e4, hgt, w1, w2, w3, w4⟩ := hw
      have hceq : ((qtPoints (QuadTree.node b nw sw ne se) : List SpikePair) :
          Multiset SpikePair) =
          ↑(qtPoints nw) + ↑(qtPoints sw) + ↑(qtPoints ne) + ↑(qtPoints se) := by
        simp
      have hle1 : (↑(qtPoints nw) : Multiset SpikePair) ≤
          ↑(qtPoints (QuadTree.node b nw sw ne se)) := by
        rw [hceq]; exact le_four_1 _ _ _ _
      have hle2 : (↑(qtPoints sw) : Multiset SpikePair) ≤
          ↑(qtPoints (QuadTree.node b nw sw ne se)) := by
        rw [hceq]; exact le_four_2 _ _ _ _
      have hle3 : (↑(qtPoints ne) : Multiset SpikePair) ≤
          ↑(qtPoints (QuadTree.node b nw sw ne se)) := by
        rw [hceq]; exact le_four_3 _ _ _ _
      have hle4 : (↑(qtPoints se) : Multiset SpikePair) ≤
          ↑(qtPoints (QuadTree.node b nw sw ne se)) := by
        rw [hceq]; exact le_four_4 _ _ _ _
      have nd1 := nodup_cons_of_le (pointOf spp) _ _
        (coe_map_le_of_le (qtPoints nw) _ hle1) hnd
      have nd2 := nodup_cons_of_le (pointOf spp) _ _
        (coe_map_le_of_le (qtPoints sw) _ hle2) hnd
      have nd3 := nodup_cons_of_le (pointOf spp) _ _
        (coe_map_le_of_le (qtPoints ne) _ hle3) hnd
      have nd4 := nodup_cons_of_le (pointOf spp) _ _
        (coe_map_le_of_le (qtPoints se) _ hle4) hnd
      obtain ⟨c1, c2, c3, c4⟩ := insertKids_comp (QTreeInsert fuel)
        ⟨nw, sw, ne, se⟩ spp
      rw [wfT_node]
      refine ⟨?_, ?_, ?_, ?_, hgt, ?_, ?_, ?_, ?_⟩
      · rw [c1, insert_bdry]; exact e1
      · rcases c2 with h | h
        · rw [h]; exact e2
        · rw [h, insert_bdry]; exact e2
      · rcases c3 with h | h
        · rw [h]; exact e3
        · rw [h, insert_bdry]; exact e3
      · rcases c4 with h | h
        · rw [h]; exact e4
        · rw [h, insert_bdry]; exact e4
      · rw [c1]; exact wf_insert fuel nw spp w1 nd1
      · rcases c2 with h | h
        · rw [h]; exact w2
        · rw [h]; exact wf_insert fuel sw spp w2 nd2
      · rcases c3 with h | h
        · rw [h]; exact w3
        · rw [h]; exact wf_insert fuel ne spp w3 nd3
      · rcases c4 with h | h
        · rw [h]; exact w4
        · rw [h]; exact wf_insert fuel se spp w4 nd4

/-! ### Fuel stability: enough fuel makes the insertion result definite -/

theorem leaf_insert_reject (f : ℕ) (hf : 1 ≤ f) (b : BoundingBox)
    (l : List SpikePair) (spp : SpikePair)
    (hc : BBoxContainsPoint b spp = false) :
    QTreeInsert f (.leaf b l) spp = (.leaf b l, false) := by
  obtain ⟨f2, rfl⟩ : ∃ f2, f = f2 + 1 := ⟨f - 1, by omega⟩
  rw [insert_succ_leaf, if_pos hc]

theorem node_insert_reject (f : ℕ) (hf : 1 ≤ f) (b : BoundingBox)
    (nw sw ne se : QuadTree) (spp : SpikePair)
    (hc : BBoxContainsPoint b spp = false) :
    QTreeInsert f (.node b nw sw ne se) spp = (.node b nw sw ne se, false) := by
  obtain ⟨f2, rfl⟩ : ∃ f2, f = f2 + 1 := ⟨f - 1, by omega⟩
  rw [insert_succ_node, if_pos hc]

theorem half_le_pow (w : ℚ) (j : ℕ) (h : w ≤ 2 ^ (j + 1)) : w / 2 ≤ 2 ^ j := by
  have hp : (2 : ℚ) ^ (j + 1) = 2 ^ j * 2 := pow_succ 2 j
  rw [hp] at h
  linarith

theorem nodup_append_distinct (b : BoundingBox) (ps : List SpikePair)
    (spp : SpikePair)
    (hnd : ((pointOf spp) ::ₘ ((ps.map pointOf : List (ℤ × ℤ)) :
      Multiset (ℤ × ℤ))).Nodup) :
    ((ps ++ [spp]).map pointOf).Nodup := by
  have hxA : (pointOf spp :: ps.map pointOf : List (ℤ × ℤ)).Nodup := by
    rw [← Multiset.coe_nodup, ← Multiset.cons_coe]
    exact hnd
  rw [List.map_append]
  exact (List.perm_append_singleton _ _).symm.nodup hxA

/-- With fuel at least `k + 2`, where the node's half-width is at most
`2^k`, inserting a fresh pairwise-distinct pair into a well-formed tree no
longer depends on the fuel: the subdivision recursion bottoms out because
a box of half-width at most 1 cannot overflow on distinct integer
points. -/
theorem insert_fuel_eq : ∀ (k : ℕ) (t : QuadTree) (spp : SpikePair),
    WfT t → (QuadTree.bdry t).w2 ≤ 2 ^ k →
    ((pointOf spp) ::ₘ (((qtPoints t).map pointOf : List (ℤ × ℤ)) :
      Multiset (ℤ × ℤ))).Nodup →
    ∀ f g : ℕ, k + 2 ≤ f → k + 2 ≤ g →
    QTreeInsert f t spp = QTreeInsert g t spp := by
  intro k
  induction k with
  | zero =>
    intro t spp hw hbound hnd f g hf hg
    cases t with
    | node b nw sw ne se =>
      exfalso
      have hgt : 1 < b.w2 := ((wfT_node b nw sw ne se).mp hw).2.2.2.2.1
      have hb1 : b.w2 ≤ 1 := by simpa using hbound
      linarith
    | leaf b ps =>
      simp only [qtPoints_leaf] at hnd
      obtain ⟨hcnt, hle4⟩ := (wfT_leaf b ps).mp hw
      have hf1 : 1 ≤ f := by omega
      have hg1 : 1 ≤ g := by omega
      by_cases hc : BBoxContainsPoint b spp = false
      · exact (leaf_insert_reject f hf1 b ps spp hc).trans
          (leaf_insert_reject g hg1 b ps spp hc).symm
      · have hb := contains_true_of_not_false b spp hc
        by_cases hlen : ps.length < QT_MAX_CAP
        · rw [leaf_insert_nonfull f hf1 b ps hlen spp,
            leaf_insert_nonfull g hg1 b ps hlen spp]
        · exfalso
          have hps4 : ps.length = QT_MAX_CAP := le_antisymm hle4 (le_of_not_lt hlen)
          have hcont5 : ∀ p ∈ ps ++ [spp], BBoxContainsPoint b p = true := by
            intro p hp
            rcases List.mem_append.mp hp with h | h
            · exact hcnt p h
            · rw [List.mem_singleton.mp h]; exact hb
          have hnd5 := nodup_append_distinct b ps spp hnd
          have hb1 : b.w2 ≤ 1 := by simpa using hbound
          have h5 := contained_nodup_length_le b (ps ++ [spp]) hb1 hcont5 hnd5
          rw [List.length_append, hps4] at h5
          simp [QT_MAX_CAP] at h5
  | succ j ih =>
    intro t spp hw hbound hnd f g hf hg
    cases t with
    | leaf b ps =>
      simp only [qtPoints_leaf] at hnd
      obtain ⟨hcnt, hle4⟩ := (wfT_leaf b ps).mp hw
      have hf1 : 1 ≤ f := by omega
      have hg1 : 1 ≤ g := by omega
      by_cases hc : BBoxContainsPoint b spp = false
      · exact (leaf_insert_reject f hf1 b ps spp hc).trans
          (leaf_insert_reject g hg1 b ps spp hc).symm
      · by_cases hlen : ps.length < QT_MAX_CAP
        · rw [leaf_insert_nonfull f hf1 b ps hlen spp,
            leaf_insert_nonfull g hg1 b ps hlen spp]
        · obtain ⟨f2, rfl⟩ : ∃ f2, f = f2 + 1 := ⟨f - 1, by omega⟩
          obtain ⟨g2, rfl⟩ : ∃ g2, g = g2 + 1 := ⟨g - 1, by omega⟩
          have hf2 : j + 2 ≤ f2 := by omega
          have hg2 : j + 2 ≤ g2 := by omega
          have hf2p : 1 ≤ f2 := by omega
          have hg2p : 1 ≤ g2 := by omega
          have hps4 : ps.length = QT_MAX_CAP := le_antisymm hle4 (le_of_not_lt hlen)
          obtain ⟨m1, m2, m3, m4, heqf, heqg, ⟨hm1, hm2, hm3, hm4⟩,
              hq1, hq2, hq3, hq4⟩ :=
            drain_fold_spec f2 g2 hf2p hg2p ps (nwBox b) (swBox b) (neBox b)
              (seBox b) [] [] [] [] (by simp [hps4]) (by simp) (by simp)
              (by simp) (by simp)
          have hsubf : QTreeSubdivide (QTreeInsert f2) b ps =
              ⟨.leaf (nwBox b) m1, .leaf (swBox b) m2, .leaf (neBox b) m3,
                .leaf (seBox b) m4⟩ := by
            rw [subdivide_eq_foldl]; exact heqf
          have hsubg : QTreeSubdivide (QTreeInsert g2) b ps =
              ⟨.leaf (nwBox b) m1, .leaf (swBox b) m2, .leaf (neBox b) m3,
                .leaf (seBox b) m4⟩ := by
            rw [subdivide_eq_foldl]; exact heqg
          have hd := foldl_drain_points_le (QTreeInsert f2)
            (fun t s => points_insert f2 t s) ps
            ⟨.leaf (nwBox b) [], .leaf (swBox b) [], .leaf (neBox b) [],
              .leaf (seBox b) []⟩
          rw [heqf] at hd
          have hdle : ((m1 ++ m2 ++ m3 ++ m4 : List SpikePair) :
              Multiset SpikePair) ≤ ↑ps := by
            refine le_trans (le_of_eq rfl) (le_trans hd ?_)
            simp [kidsPoints]
          rw [coe_four_append] at hdle
          have nd1 := nodup_cons_of_le (pointOf spp) _ _
            (coe_map_le_of_le m1 ps (le_trans (le_four_1 _ _ _ _) hdle)) hnd
          have nd2 := nodup_cons_of_le (pointOf spp) _ _
            (coe_map_le_of_le m2 ps (le_trans (le_four_2 _ _ _ _) hdle)) hnd
          have nd3 := nodup_cons_of_le (pointOf spp) _ _
            (coe_map_le_of_le m3 ps (le_trans (le_four_3 _ _ _ _) hdle)) hnd
          have nd4 := nodup_cons_of_le (pointOf spp) _ _
            (coe_map_le_of_le m4 ps (le_trans (le_four_4 _ _ _ _) hdle)) hnd
          have hw2 : b.w2 / 2 ≤ (2 : ℚ) ^ j := half_le_pow b.w2 j hbound
          have k1 := ih (.leaf (nwBox b) m1) spp ((wfT_leaf _ _).mpr ⟨hq1, hm1⟩)
            (by simpa [nwBox] using hw2) (by simpa [qtPoints_leaf] using nd1)
            f2 g2 hf2 hg2
          have k2 := ih (.leaf (swBox b) m2) spp ((wfT_leaf _ _).mpr ⟨hq2, hm2⟩)
            (by simpa [swBox] using hw2) (by simpa [qtPoints_leaf] using nd2)
            f2 g2 hf2 hg2
          have k3 := ih (.leaf (neBox b) m3) spp ((wfT_leaf _ _).mpr ⟨hq3, hm3⟩)
            (by simpa [neBox] using hw2) (by simpa [qtPoints_leaf] using nd3)
            f2 g2 hf2 hg2
          have k4 := ih (.leaf (seBox b) m4) spp ((wfT_leaf _ _).mpr ⟨hq4, hm4⟩)
            (by simpa [seBox] using hw2) (by simpa [qtPoints_leaf] using nd4)
            f2 g2 hf2 hg2
          have hcas : insertKids (QTreeInsert f2)
              (QTreeSubdivide (QTreeInsert f2) b ps) spp =
              insertKids (QTreeInsert g2)
              (QTreeSubdivide (QTreeInsert g2) b ps) spp := by
            rw [hsubf, hsubg]
            exact insertKids_congr _ _ _ spp k1 k2 k3 k4
          have hLf : QTreeInsert (f2 + 1) (.leaf b ps) spp =
              (QuadTree.node b
                (insertKids (QTreeInsert f2) (QTreeSubdivide (QTreeInsert f2) b ps) spp).1.nw
                (insertKids (QTreeInsert f2) (QTreeSubdivide (QTreeInsert f2) b ps) spp).1.sw
                (insertKids (QTreeInsert f2) (QTreeSubdivide (QTreeInsert f2) b ps) spp).1.ne
                (insertKids (QTreeInsert f2) (QTreeSubdivide (QTreeInsert f2) b ps) spp).1.se,
               (insertKids (QTreeInsert f2) (QTreeSubdivide (QTreeInsert f2) b ps) spp).2) := by
            rw [insert_succ_leaf, if_neg hc, if_neg hlen]
          have hLg : QTreeInsert (g2 + 1) (.leaf b ps) spp =
              (QuadTree.node b
                (insertKids (QTreeInsert g2) (QTreeSubdivide (QTreeInsert g2) b ps) spp).1.nw
                (insertKids (QTreeInsert g2) (QTreeSubdivide (QTreeInsert g2) b ps) spp).1.sw
                (insertKids (QTreeInsert g2) (QTreeSubdivide (QTreeInsert g2) b ps) spp).1.ne
                (insertKids (QTreeInsert g2) (QTreeSubdivide (QTreeInsert g2) b ps) spp).1.se,
               (insertKids (QTreeInsert g2) (QTreeSubdivide (QTreeInsert g2) b ps) spp).2) := by
            rw [insert_succ_leaf, if_neg hc, if_neg hlen]
          rw [hLf, hLg, hcas]
    | node b nw sw ne se =>
      obtain ⟨e1, e2, e3, e4, hgt, w1, w2, w3, w4⟩ := (wfT_node b nw sw ne se).mp hw
      have hf1 : 1 ≤ f := by omega
      have hg1 : 1 ≤ g := by omega
      by_cases hc : BBoxContainsPoint b spp = false
      · exact (node_insert_reject f hf1 b nw sw ne se spp hc).trans
          (node_insert_reject g hg1 b nw sw ne se spp hc).symm
      · obtain ⟨f2, rfl⟩ : ∃ f2, f = f2 + 1 := ⟨f - 1, by omega⟩
        obtain ⟨g2, rfl⟩ : ∃ g2, g = g2 + 1 := ⟨g - 1, by omega⟩
        have hf2 : j + 2 ≤ f2 := by omega
        have hg2 : j + 2 ≤ g2 := by omega
        have hceq : ((qtPoints (QuadTree.node b nw sw ne se) : List SpikePair) :
            Multiset SpikePair) =
            ↑(qtPoints nw) + ↑(qtPoints sw) + ↑(qtPoints ne) + ↑(qtPoints se) := by
          simp
        have hle1 : (↑(qtPoints nw) : Multiset SpikePair) ≤
            ↑(qtPoints (QuadTree.node b nw sw ne se)) := by
          rw [hceq]; exact le_four_1 _ _ _ _
        have hle2 : (↑(qtPoints sw) : Multiset SpikePair) ≤
            ↑(qtPoints (QuadTree.node b nw sw ne se)) := by
          rw [hceq]; exact le_four_2 _ _ _ _
        have hle3 : (↑(qtPoints ne) : Multiset SpikePair) ≤
            ↑(qtPoints (QuadTree.node b nw sw ne se)) := by
          rw [hceq]; exact le_four_3 _ _ _ _
        have hle4 : (↑(qtPoints se) : Multiset SpikePair) ≤
            ↑(qtPoints (QuadTree.node b nw sw ne se)) := by
          rw [hceq]; exact le_four_4 _ _ _ _
        have nd1 := nodup_cons_of_le (pointOf spp) _ _
          (coe_map_le_of_le (qtPoints nw) _ hle1) hnd
        have nd2 := nodup_cons_of_le (pointOf spp) _ _
          (coe_map_le_of_le (qtPoints sw) _ hle2) hnd
        have nd3 := nodup_cons_of_le (pointOf spp) _ _
          (coe_map_le_of_le (qtPoints ne) _ hle3) hnd
        have nd4 := nodup_cons_of_le (pointOf spp) _ _
          (coe_map_le_of_le (qtPoints se) _ hle4) hnd
        have hw2 : b.w2 / 2 ≤ (2 : ℚ) ^ j := half_le_pow b.w2 j hbound
        have k1 := ih nw spp w1 (by rw [e1]; simpa [nwBox] using hw2) nd1 f2 g2 hf2 hg2
        have k2 := ih sw spp w2 (by rw [e2]; simpa [swBox] using hw2) nd2 f2 g2 hf2 hg2
        have k3 := ih ne spp w3 (by rw [e3]; simpa [neBox] using hw2) nd3 f2 g2 hf2 hg2
        have k4 := ih se spp w4 (by rw [e4]; simpa [seBox] using hw2) nd4 f2 g2 hf2 hg2
        have hcas : insertKids (QTreeInsert f2) ⟨nw, sw, ne, se⟩ spp =
            insertKids (QTreeInsert g2) ⟨nw, sw, ne, se⟩ spp :=
          insertKids_congr _ _ _ spp k1 k2 k3 k4
        have hLf : QTreeInsert (f2 + 1) (.node b nw sw ne se) spp =
            (QuadTree.node b
              (insertKids (QTreeInsert f2) ⟨nw, sw, ne, se⟩ spp).1.nw
              (insertKids (QTreeInsert f2) ⟨nw, sw, ne, se⟩ spp).1.sw
              (insertKids (QTreeInsert f2) ⟨nw, sw, ne, se⟩ spp).1.ne
              (insertKids (QTreeInsert f2) ⟨nw, sw, ne, se⟩ spp).1.se,
             (insertKids (QTreeInsert f2) ⟨nw, sw, ne, se⟩ spp).2) := by
          rw [insert_succ_node, if_neg hc]
        have hLg : QTreeInsert (g2 + 1) (.node b nw sw ne se) spp =
            (QuadTree.node b
              (insertKids (QTreeInsert g2) ⟨nw, sw, ne, se⟩ spp).1.nw
              (insertKids (QTreeInsert g2) ⟨nw, sw, ne, se⟩ spp).1.sw
              (insertKids (QTreeInsert g2) ⟨nw, sw, ne, se⟩ spp).1.ne
              (insertKids (QTreeInsert g2) ⟨nw, sw, ne, se⟩ spp).1.se,
             (insertKids (QTreeInsert g2) ⟨nw, sw, ne, se⟩ spp).2) := by
          rw [insert_succ_node, if_neg hc]
        rw [hLf, hLg, hcas]

theorem insertList_fuel_eq (k : ℕ) : ∀ (ps : List SpikePair) (t : QuadTree),
    WfT t → (QuadTree.bdry t).w2 ≤ 2 ^ k →
    ((((qtPoints t).map pointOf : List (ℤ × ℤ)) : Multiset (ℤ × ℤ)) +
      ↑(ps.map pointOf)).Nodup →
    ∀ f g : ℕ, k + 2 ≤ f → k + 2 ≤ g →
    insertList f t ps = insertList g t ps := by
  intro ps
  induction ps with
  | nil => intro t _ _ _ f g _ _; rfl
  | cons spp ps2 ih =>
    intro t hw hbound hnd f g hf hg
    simp only [List.map_cons, ← Multiset.cons_coe] at hnd
    have hleA : (pointOf spp ::ₘ
        (((qtPoints t).map pointOf : List (ℤ × ℤ)) : Multiset (ℤ × ℤ))) ≤
        ↑((qtPoints t).map pointOf) + (pointOf spp ::ₘ ↑(ps2.map pointOf)) := by
      rw [← Multiset.singleton_add]
      rw [← Multiset.singleton_add]
      rw [← add_assoc, add_comm ({pointOf spp} : Multiset (ℤ × ℤ)) _]
      exact le_add_right le_rfl
    have hA := Multiset.nodup_of_le hleA hnd
    have heq : QTreeInsert f t spp = QTreeInsert g t spp :=
      insert_fuel_eq k t spp hw hbound hA f g hf hg
    have hw2 := wf_insert f t spp hw hA
    have hb2 : (QuadTree.bdry (QTreeInsert f t spp).1).w2 ≤ 2 ^ k := by
      rw [insert_bdry]; exact hbound
    have hple : ((((qtPoints (QTreeInsert f t spp).1).map pointOf :
        List (ℤ × ℤ)) : Multiset (ℤ × ℤ))) ≤
        ↑((qtPoints t).map pointOf) + {pointOf spp} := by
      have h2 : Multiset.map pointOf
          ((qtPoints (QTreeInsert f t spp).1 : List SpikePair) :
            Multiset SpikePair) ≤
          Multiset.map pointOf (↑(qtPoints t) + {spp}) :=
        Multiset.map_le_map (points_insert_le f t spp)
      simpa [Multiset.map_coe] using h2
    have hnd2 : ((((qtPoints (QTreeInsert f t spp).1).map pointOf :
        List (ℤ × ℤ)) : Multiset (ℤ × ℤ)) + ↑(ps2.map pointOf)).Nodup := by
      refine Multiset.nodup_of_le ?_ hnd
      rw [← Multiset.singleton_add, ← add_assoc]
      exact add_le_add_right hple _
    have hstep := ih ((QTreeInsert f t spp).1) hw2 hb2 hnd2 f g hf hg
    rw [insertList_cons, insertList_cons, ← heq]
    exact hstep

/-- C9: for a root box of positive half-width and a sequence of spike
pairs whose (t1, t2) points are pairwise distinct, the insertion recursion
of `QTreeInsert` (with the subdivision cascade it triggers) terminates:
beyond an input-dependent fuel bound, adding more fuel never changes the
resulting tree — the recursion depth actually needed is finite, as
unbounded subdivision would require coincident points. -/
theorem c9_insert_termination (b : BoundingBox) (hw : 0 < b.w2)
    (ps : List SpikePair) (hnd : (ps.map pointOf).Nodup) :
    ∃ n : ℕ, ∀ f : ℕ, n ≤ f →
      insertList f (QTreeCreate b) ps = insertList n (QTreeCreate b) ps := by
  obtain ⟨k, hk⟩ := exists_nat_ge b.w2
  have h2k : (k : ℚ) ≤ 2 ^ k := by
    have h := Nat.le_of_lt (Nat.lt_two_pow k)
    exact_mod_cast h
  have hk2 : b.w2 ≤ 2 ^ k := le_trans hk h2k
  have hwf : WfT (QTreeCreate b) := (wfT_leaf b []).mpr ⟨by simp, by simp⟩
  have hb : (QuadTree.bdry (QTreeCreate b)).w2 ≤ 2 ^ k := hk2
  have hnd2 : ((((qtPoints (QTreeCreate b)).map pointOf : List (ℤ × ℤ)) :
      Multiset (ℤ × ℤ)) + ↑(ps.map pointOf)).Nodup := by
    simpa [QTreeCreate, qtPoints_leaf] using hnd
  refine ⟨k + 2, fun f hf => ?_⟩
  exact insertList_fuel_eq k ps (QTreeCreate b) hwf hb hnd2 f (k + 2) hf le_rfl

/-- Witness for C9 at a concrete input: box centred at (0,10) with
half-width 2 and two distinct pairs. -/
theorem c9_insert_termination_witness :
    0 < dropBox.w2 ∧
    (([pairAt 1 9, pairAt 0 9]).map pointOf).Nodup ∧
    ∃ n : ℕ, ∀ f : ℕ, n ≤ f →
      insertList f (QTreeCreate dropBox) [pairAt 1 9, pairAt 0 9] =
      insertList n (QTreeCreate dropBox) [pairAt 1 9, pairAt 0 9] :=
  ⟨by decide, by decide,
    c9_insert_termination dropBox (by decide) [pairAt 1 9, pairAt 0 9] (by decide)⟩
